import Mathlib

/-!
Verification of the zero-knowledge proof suite of `threshold-network/tss-lib`
(`crypto/paillier`: the PARAM ring-Pedersen proof, the MOD Blum-integer proof
and the FACTOR no-small-factor proof, together with the keygen message layer).

The Go code is shallowly embedded: `math/big` integers become `ℤ` (or `ℕ` for
moduli and byte values), `big.Int.Exp`/`Mod` become explicit `%`-arithmetic,
and the two hash helpers of the `common` package that are not part of the
sources (`common.HashToN`, `common.SHA512_256i`) are taken as parameters of
the definitions, constrained only by their documented contracts.  Fallible Go
code (errors, and the one `panic` branch in `DefineXi`) is modelled with
`Option`.
-/

namespace Tss


/-- The number of challenge rounds, `PARAM_M = 80` in `param_proof.go`. -/
def PARAM_M : ℕ := 80

/-- Security parameter `PARAM_L = 256` in `factor_proof.go`. -/
def PARAM_L : ℕ := 256

/-- Security parameter `PARAM_E = 512` in `factor_proof.go`. -/
def PARAM_E : ℕ := 512

/-- `common.ModInt(n).Mul`: multiplication reduced modulo `n`.  `big.Int.Mod`
with a positive modulus returns a value in `[0, n)`, which is `Int.emod`. -/
def modMul (n : ℕ) (x y : ℤ) : ℤ := x * y % n

/-- `common.ModInt(n).Add`: addition reduced modulo `n`. -/
def modAdd (n : ℕ) (x y : ℤ) : ℤ := (x + y) % n

/-- `big.Int.Exp(x, e, n)` for a non-negative exponent `e`. -/
def expMod (x : ℤ) (e : ℕ) (n : ℕ) : ℤ := x ^ e % n

/-- The extended Euclidean algorithm (`big.Int.GCD`'s Bézout coefficients),
written with explicit fuel so that the kernel can evaluate it.  Returns
`(a, b)` with `a*x + b*y = gcd x y` whenever `x < fuel`. -/
def xgcdFuel : ℕ → ℕ → ℕ → ℤ × ℤ
  | 0, _, _ => (0, 1)
  | fuel + 1, x, y =>
    if x = 0 then (0, 1)
    else
      let p := xgcdFuel fuel (y % x) x
      (p.2 - ((y / x : ℕ) : ℤ) * p.1, p.1)

/-- Bézout coefficient `a` with `a*x + b*y = gcd x y` (`big.Int.GCD`). -/
def egcdA (x y : ℕ) : ℤ := (xgcdFuel (x + 1) x y).1

/-- Bézout coefficient `b` with `a*x + b*y = gcd x y` (`big.Int.GCD`). -/
def egcdB (x y : ℕ) : ℤ := (xgcdFuel (x + 1) x y).2

/-- `big.Int.ModInverse(x, n)`: the inverse of `x` modulo `n`, computed from
the Bézout coefficient of `gcd(x % n, n)`.  (For non-coprime arguments Go
returns `nil`; the claims below only use it on coprime arguments, where this
definition agrees with Go.) -/
def modInverse (x : ℕ) (n : ℕ) : ℕ := ((egcdA (x % n) n) % (n : ℤ)).toNat

/-- `big.Int.ModInverse` for an integer argument. -/
def modInverseZ (x : ℤ) (n : ℕ) : ℤ := (egcdA (x % (n : ℤ)).toNat n) % (n : ℤ)

/-- `common.ModInt(n).Exp(x, e)` = `big.Int.Exp(x, e, n)` for a possibly
negative exponent: Go inverts the base modulo `n` first (the claims only
reach the negative branch with invertible bases). -/
def expModZ (x : ℤ) (e : ℤ) (n : ℕ) : ℤ :=
  if 0 ≤ e then x ^ e.toNat % n else (modInverseZ x n) ^ (-e).toNat % n

/-- `common.ModInt(n).MulExp(a, b, e)` = `a * b^e mod n`. -/
def MulExp (n : ℕ) (a b e : ℤ) : ℤ := modMul n a (expModZ b e n)

/-- `common.ModInt(n).ExpMulExp(a, x, b, y)` = `a^x * b^y mod n`
(modelled from the spec: a simultaneous double exponentiation whose
correctness contract is exactly the product of the two powers). -/
def ExpMulExp (n : ℕ) (a x b y : ℤ) : ℤ := modMul n (expModZ a x n) (expModZ b y n)

/-- `common.AddMul(a, e, b)` = `a + e*b` over the integers, NOT reduced. -/
def AddMul (a e b : ℤ) : ℤ := a + e * b

/-- `big.Int.ProbablyPrime(30)`.  Modelled from the spec: "a standard
probabilistic primality test"; in the embedding it is the exact primality
predicate, written as executable trial division. -/
def probablyPrime (n : ℕ) : Bool :=
  decide (2 ≤ n) && (List.range n).all fun d => decide (d < 2) || decide (¬d ∣ n)

/-- `BytesToBits` (param_proof.go): entry `i` is `b.Bit(i)`, for `i < 80`. -/
def BytesToBits (b : ℕ) : List ℕ :=
  (List.range PARAM_M).map fun i => if b.testBit i then 1 else 0

/-- `big.Int.Bytes()` with explicit fuel, so the kernel can evaluate it. -/
def natToBytesFuel : ℕ → ℕ → List ℕ
  | 0, _ => []
  | fuel + 1, n => if n = 0 then [] else natToBytesFuel fuel (n / 256) ++ [n % 256]

/-- `big.Int.Bytes()`: canonical big-endian byte string of a non-negative
integer; the empty string for `0`. -/
def natToBytes (n : ℕ) : List ℕ := natToBytesFuel n n

/-- `big.Int.SetBytes`: interpret a big-endian byte string. -/
def bytesToNat (l : List ℕ) : ℕ := l.foldl (fun acc b => acc * 256 + b) 0

/-! ## ModProof (mod_proof.go) -/

/-- The `ModProof` struct: `W`, and the four `[PARAM_M]`-arrays `X`, `A`,
`B`, `Z` (modelled as lists; theorems carry the length-80 invariant). -/
structure ModProof where
  W : ℤ
  X : List ℤ
  A : List Bool
  B : List Bool
  Z : List ℤ
deriving DecidableEq

section ModSection

variable (hashToN : ℕ → List ℤ → ℕ)

/-- `ModChallenge(N, w)`: `y[i] = HashToN(N, w, i)` for `i < 80`.
`common.HashToN` is not in the sources; it is modelled from the spec:
`hash_to_n(bound, *ints)` deterministically hashes the ordered tuple and
reduces into `[0, bound)`; here it is the parameter `hashToN`. -/
def ModChallenge (N : ℕ) (w : ℤ) : List ℤ :=
  (List.range PARAM_M).map fun i : ℕ => (hashToN N [w, (i : ℤ)] : ℤ)

/-- The sign/twist `(-1)^a * w^b * y_i mod N`, computed exactly as both
`DefineXi` and `ModVerify` do: multiply by `w` if `b`, negate if `a`,
then reduce modulo `N`. -/
def twistYi (w yi : ℤ) (a b : Bool) (N : ℕ) : ℤ :=
  (if a then -(if b then yi * w else yi) else (if b then yi * w else yi)) % (N : ℤ)

/-- `PrimeModSqrt(x, p)`: `[]` when `x` has no square root modulo `p`,
otherwise `[r, -r mod p]`.  `big.Int.ModSqrt` (library code) is modelled as
the least square root; the pair `{r, -r}` does not depend on the choice. -/
def PrimeModSqrt (x : ℤ) (p : ℕ) : List ℤ :=
  match (List.range p).find? (fun r : ℕ => ((r : ℤ) * r) % p = x % p) with
  | none => []
  | some r => [(r : ℤ), ((p : ℤ) - r) % p]

/-- `CompModSqrt(x, p, q, n)`: CRT combination `b*q*rp + a*p*rq mod n` of
every pair of prime-level roots, with Bézout coefficients `a*p + b*q = gcd`. -/
def CompModSqrt (x : ℤ) (p q n : ℕ) : List ℤ :=
  let rps := PrimeModSqrt x p
  let rqs := PrimeModSqrt x q
  let a := egcdA p q
  let b := egcdB p q
  rps.flatMap fun rp => rqs.map fun rq =>
    modAdd n (modMul n (modMul n b q) rp) (modMul n (modMul n a p) rq)

/-- `CompMod4thRt(x, p, q, n)`: the square roots of every square root. -/
def CompMod4thRt (x : ℤ) (p q n : ℕ) : List ℤ :=
  (CompModSqrt x p q n).flatMap fun sqroot => CompModSqrt sqroot p q n

/-- `DefineXi(w, y_i, p, q, N)`: search the four `(a, b)` combinations in
source order and return the first quartic root found; `none` models the
`no root found` panic branch. -/
def DefineXi (w yi : ℤ) (p q N : ℕ) : Option (Bool × Bool × ℤ) :=
  [(false, false), (false, true), (true, false), (true, true)].findSome? fun ab =>
    match CompMod4thRt (twistYi w yi ab.1 ab.2 N) p q N with
    | [] => none
    | r :: _ => some (ab.1, ab.2, r)

/-- Option-valued `List.map`, used to thread `DefineXi`'s possible failure
through the generation loop of `ModProof()`. -/
def mapOption (f : α → Option β) : List α → Option (List β)
  | [] => some []
  | a :: l =>
    match f a, mapOption f l with
    | some b, some bs => some (b :: bs)
    | _, _ => none

/-- `PrivateKey.ModProof()` for a key with modulus `N`, totient `phiN` and
primes `p`, `q`, at sampling outcome `w` (the generation loop retries until
`Jacobi(w, N) = -1`, so `w` ranges over exactly those values).  Returns
`none` iff `DefineXi` hits its panic branch. -/
def ModProofGen (N phiN p q : ℕ) (w : ℤ) : Option ModProof :=
  let y := ModChallenge hashToN N w
  let inv := modInverse N phiN
  match mapOption (fun yi => DefineXi w yi p q N) y with
  | none => none
  | some abx =>
    some { W := w
           X := abx.map fun t => t.2.2
           A := abx.map fun t => t.1
           B := abx.map fun t => t.2.1
           Z := y.map fun yi => expMod yi inv N }

/-- The reasons `ModVerify` can reject, mirroring its error returns. -/
inductive ModErr where
  | evenModulus : ModErr
  | primeModulus : ModErr
  | zCheckFailed : ℕ → ModErr
  | xCheckFailed : ℕ → ModErr
deriving DecidableEq

/-- The per-index loop of `ModVerify`: first failing check wins. -/
def ModVerifyLoop (N : ℕ) (w : ℤ) (X : List ℤ) (A B : List Bool) (Z : List ℤ)
    (y : List ℤ) : List ℕ → Option ModErr
  | [] => none
  | i :: rest =>
    let yi := y.getD i 0
    if expMod (Z.getD i 0) N N = yi then
      if expMod (X.getD i 0) 4 N = twistYi w yi (A.getD i false) (B.getD i false) N then
        ModVerifyLoop N w X A B Z y rest
      else some (.xCheckFailed i)
    else some (.zCheckFailed i)

/-- `ModProof.ModVerify(N)`: `none` is `(true, nil)`, `some e` is
`(false, err)` with `e` identifying the failing check and index. -/
def ModVerify (N : ℕ) (pf : ModProof) : Option ModErr :=
  if N % 2 ≠ 1 then some .evenModulus
  else if probablyPrime N then some .primeModulus
  else ModVerifyLoop N pf.W pf.X pf.A pf.B pf.Z (ModChallenge hashToN N pf.W)
    (List.range PARAM_M)

end ModSection

/-- The CRT combination that `CompModSqrt` appends for a pair of prime-level
roots. -/
def crtComb (p q n : ℕ) (rp rq : ℤ) : ℤ :=
  modAdd n (modMul n (modMul n (egcdB p q) q) rp) (modMul n (modMul n (egcdA p q) p) rq)

/-! ## Jacobi symbol (big.Jacobi, library code, modelled by its definition) -/

/-- The Legendre symbol of `x` at an odd prime `p`, by its defining case
split (`big.Jacobi` restricted to a prime modulus). -/
def legendreE (x : ℤ) (p : ℕ) : ℤ :=
  if x % (p : ℤ) = 0 then 0 else if PrimeModSqrt x p ≠ [] then 1 else -1

/-- `big.Jacobi(w, N)` for `N = p*q`: by definition of the Jacobi symbol it is
the product of the Legendre symbols at the prime factors. -/
def jacobiPQ (w : ℤ) (p q : ℕ) : ℤ := legendreE w p * legendreE w q

/-- A concrete hash oracle used by the witnesses below: sum of magnitudes,
reduced into the bound. -/
def sumHash (bound : ℕ) (args : List ℤ) : ℕ := (args.map Int.natAbs).sum % bound

/-- The forged proof of `TestModProofVerify_ForgedProof`: `N = 17*7 = 119`
(17 is not `3 mod 4`), `φ(N) = 96`, witness `W = 0`, all `a_i = b_i = true`,
all `x_i = 0`, and `z_i = y_i^(N⁻¹ mod φN) mod N` for the challenge
`y = ModChallenge(N, 0)`. -/
def forgedModProof (hashToN : ℕ → List ℤ → ℕ) : ModProof :=
  let y := ModChallenge hashToN 119 0
  let z0 := modInverse 119 96
  { W := 0
    X := List.replicate PARAM_M 0
    A := List.replicate PARAM_M true
    B := List.replicate PARAM_M true
    Z := y.map fun yi => expMod yi z0 119 }

/-! ## ParamProof (param_proof.go) -/

/-- The `ParamProof` struct: `A[PARAM_M]`, `Z[PARAM_M]`, with each entry a
`*big.Int` and hence possibly nil, modelled by `Option`. -/
structure ParamProof where
  A : List (Option ℤ)
  Z : List (Option ℤ)
deriving DecidableEq

/-- `common.AnyIsNil` on a slice of `*big.Int`. -/
def AnyIsNil (xs : List (Option ℤ)) : Bool := xs.any fun o => o.isNone

/-- Lift never-nil values into the `Option` representation. -/
def someList (xs : List ℤ) : List (Option ℤ) := xs.map some

/-- Read an entry that has already passed the nil check. -/
def optVal (xs : List (Option ℤ)) (i : ℕ) : ℤ := (xs.getD i (some 0)).getD 0

section ParamSection

variable (sha : List ℤ → ℕ)

/-- `ParamChallenge(N, s, t, A)`: `SHA512_256i` (`common`, not in the
sources) is modelled from the spec as the parameter `sha`, a deterministic
hash of an ordered tuple of integers to a 256-bit digest;
`e = BytesToBits(sha(N, s, t, sha(A)))`. -/
def ParamChallenge (N : ℕ) (s t : ℤ) (A : List (Option ℤ)) : List ℕ :=
  BytesToBits (sha [(N : ℤ), s, t, (sha (A.map fun o => o.getD 0) : ℤ)])

/-- `PrivateKey.ParamProof(s, t, lambda)` at sampling outcome `aS` (the 80
values `a_i` drawn from `[0, φ(N))`): `A_i = t^(a_i) mod N`,
`z_i = a_i + e_i * lambda mod φ(N)`. -/
def ParamProofGen (N phiN : ℕ) (s t lambda : ℤ) (aS : List ℕ) : ParamProof :=
  let A := (List.range PARAM_M).map fun i : ℕ => expMod t (aS.getD i 0) N
  let e := ParamChallenge sha N s t (someList A)
  let z := (List.range PARAM_M).map fun i : ℕ =>
    modAdd phiN ((aS.getD i 0 : ℕ) : ℤ) (modMul phiN ((e.getD i 0 : ℕ) : ℤ) lambda)
  ⟨someList A, someList z⟩

/-- `ParamProof.ParamVerify(N, s, t)`: a bare `Bool`; nil components are
rejected first (the nil check on `N, s, t` themselves is dropped, since the
embedding cannot pass a nil modulus), then each index `i` checks
`t^(z_i) = A_i * s^(e_i) mod N`. -/
def ParamVerify (N : ℕ) (s t : ℤ) (pf : ParamProof) : Bool :=
  if AnyIsNil pf.A || AnyIsNil pf.Z then false
  else
    let e := ParamChallenge sha N s t pf.A
    (List.range PARAM_M).all fun i : ℕ =>
      let tzi := expModZ t (optVal pf.Z i) N
      let Aisei := MulExp N (optVal pf.A i) s ((e.getD i 0 : ℕ) : ℤ)
      tzi == Aisei

end ParamSection

/-! ## FactorProof (factor_proof.go) -/

/-- The `FactorProof` struct: commitments `P, Q, A, B, T, Sigma` and
responses `Z1, Z2, W1, W2, V`. -/
structure FactorProof where
  P : ℤ
  Q : ℤ
  A : ℤ
  B : ℤ
  T : ℤ
  Sigma : ℤ
  Z1 : ℤ
  Z2 : ℤ
  W1 : ℤ
  W2 : ℤ
  V : ℤ
deriving DecidableEq

/-- The reasons `FactorVerify` can reject, mirroring its error returns. -/
inductive FacErr where
  | eq1Failed : FacErr
  | eq2Failed : FacErr
  | eq3Failed : FacErr
  | z1RangeExceeded : FacErr
  | z2RangeExceeded : FacErr
deriving DecidableEq

section FactorSection

variable (hashToN : ℕ → List ℤ → ℕ)

/-- `FactorChallenge(N, s, t, pkN, P, Q, A, B, T, sigma)`: hash into
`[0, 2^257 - 1)` and recentre by subtracting `2^256 - 1`. -/
def FactorChallenge (N s t pkN P Q A B T sigma : ℤ) : ℤ :=
  (hashToN (2 ^ 257 - 1) [N, s, t, pkN, P, Q, A, B, T, sigma] : ℤ) - (2 ^ 256 - 1)

/-- `FactorProof.FactorVerify(pkN, N, s, t)`: `none` is `(true, nil)`,
`some e` identifies the failing equality or range check.  The nil checks on
the arguments and fields are passed by construction in the embedding. -/
def FactorVerify (pkN N : ℕ) (s t : ℤ) (pf : FactorProof) : Option FacErr :=
  let e := FactorChallenge hashToN N s t pkN pf.P pf.Q pf.A pf.B pf.T pf.Sigma
  let R := ExpMulExp N s (pkN : ℤ) t pf.Sigma
  let sz1tw1 := ExpMulExp N s pf.Z1 t pf.W1
  let sz2tw2 := ExpMulExp N s pf.Z2 t pf.W2
  let Qz1tv := ExpMulExp N pf.Q pf.Z1 t pf.V
  let APe := MulExp N pf.A pf.P e
  let BQe := MulExp N pf.B pf.Q e
  let TRe := MulExp N pf.T R e
  if sz1tw1 ≠ APe then some .eq1Failed
  else if sz2tw2 ≠ BQe then some .eq2Failed
  else if Qz1tv ≠ TRe then some .eq3Failed
  else
    let limit := 2 ^ (PARAM_L + PARAM_E) * ((Nat.sqrt pkN : ℕ) : ℤ)
    if limit < |pf.Z1| then some .z1RangeExceeded
    else if limit < |pf.Z2| then some .z2RangeExceeded
    else none

end FactorSection

/-! ## ModProof with nilable fields, for the missing-field claim -/

/-- `ModProof` with its `*big.Int` fields allowed to be nil (the `A`, `B`
arrays are Go `bool`s and cannot be nil). -/
structure ModProofN where
  W : Option ℤ
  X : List (Option ℤ)
  A : List Bool
  B : List Bool
  Z : List (Option ℤ)
deriving DecidableEq

section ModNilSection

variable (hashToN : ℕ → List ℤ → ℕ)

/-- The per-index loop of `ModVerify` on nilable fields.  The outer `none`
models the Go runtime crash (nil-pointer dereference inside `big.Int.Exp`)
that occurs when a nil entry is read; `some r` is a normal return. -/
def ModVerifyLoopN (N : ℕ) (w : ℤ) (X : List (Option ℤ)) (A B : List Bool)
    (Z : List (Option ℤ)) (y : List ℤ) : List ℕ → Option (Option ModErr)
  | [] => some none
  | i :: rest =>
    match Z.getD i (some 0) with
    | none => none
    | some zi =>
      if expMod zi N N = y.getD i 0 then
        match X.getD i (some 0) with
        | none => none
        | some xi =>
          if expMod xi 4 N = twistYi w (y.getD i 0) (A.getD i false) (B.getD i false) N then
            ModVerifyLoopN N w X A B Z y rest
          else some (some (.xCheckFailed i))
      else some (some (.zCheckFailed i))

/-- `ModVerify` on nilable fields: no nil check is performed by the source;
a nil `W` crashes when the challenge is recomputed, a nil `X[i]`/`Z[i]`
crashes inside the loop.  The outer `none` models the crash. -/
def ModVerifyN (N : ℕ) (pf : ModProofN) : Option (Option ModErr) :=
  if N % 2 ≠ 1 then some (some .evenModulus)
  else if probablyPrime N then some (some .primeModulus)
  else
    match pf.W with
    | none => none
    | some w => ModVerifyLoopN N w pf.X pf.A pf.B pf.Z
        (ModChallenge hashToN N w) (List.range PARAM_M)

end ModNilSection

/-! ## Marshalling (messages.go round trip for ModProof) -/

/-- The `Modproof` encoding of `NewKGRound1Message` composed with
`UnmarshalModProof`: `W` is encoded as `W.Bytes()` (big-endian magnitude,
empty for zero), `X` and `Z` entrywise the same, `A` and `B` as bool
slices; decoding length-checks and applies `SetBytes`. -/
def UnmarshalModProof (ws : List ℕ) (xs : List (List ℕ)) (asB bsB : List Bool)
    (zs : List (List ℕ)) : Option ModProof :=
  if ws.length = 0 then none
  else if xs.length ≠ PARAM_M then none
  else if asB.length ≠ PARAM_M then none
  else if bsB.length ≠ PARAM_M then none
  else if zs.length ≠ PARAM_M then none
  else some { W := (bytesToNat ws : ℤ)
              X := xs.map fun l => (bytesToNat l : ℤ)
              A := asB
              B := bsB
              Z := zs.map fun l => (bytesToNat l : ℤ) }

/-- Marshal a `ModProof` exactly as `NewKGRound1Message` does and decode it
back with `UnmarshalModProof`. -/
def ModProofRoundTrip (pf : ModProof) : Option ModProof :=
  UnmarshalModProof (natToBytes pf.W.natAbs) (pf.X.map fun x => natToBytes x.natAbs)
    pf.A pf.B (pf.Z.map fun z => natToBytes z.natAbs)

/-- The condition that each `FactorVerify` error reports as violated. -/
def FacErrCond (hashToN : ℕ → List ℤ → ℕ) (pkN N : ℕ) (s t : ℤ)
    (pf : FactorProof) : FacErr → Prop := fun er =>
  let e := FactorChallenge hashToN N s t pkN pf.P pf.Q pf.A pf.B pf.T pf.Sigma
  let R := ExpMulExp N s (pkN : ℤ) t pf.Sigma
  let limit := 2 ^ (PARAM_L + PARAM_E) * ((Nat.sqrt pkN : ℕ) : ℤ)
  match er with
  | .eq1Failed => ExpMulExp N s pf.Z1 t pf.W1 ≠ MulExp N pf.A pf.P e
  | .eq2Failed => ExpMulExp N s pf.Z2 t pf.W2 ≠ MulExp N pf.B pf.Q e
  | .eq3Failed => ExpMulExp N pf.Q pf.Z1 t pf.V ≠ MulExp N pf.T R e
  | .z1RangeExceeded => limit < |pf.Z1|
  | .z2RangeExceeded => limit < |pf.Z2|

/-- A concrete digest oracle for witnesses and counterexamples: the
constant digest 1 (so that the challenge bit vector is `e_0 = 1`, all other
bits 0). -/
def shaOne : List ℤ → ℕ := fun _ => 1

/-- A proof with the `Z[0]` entry nil, used to exhibit the crash of
`ModVerify` on missing fields. -/
def nilZModProof : ModProofN :=
  { W := some 2
    X := List.replicate PARAM_M (some 0)
    A := List.replicate PARAM_M false
    B := List.replicate PARAM_M false
    Z := List.replicate PARAM_M none }

/-- A `ParamProof` with `A[42]` nil, as in `TestParamProofVerifyFail`. -/
def nilAParamProof : ParamProof :=
  { A := (List.replicate PARAM_M (some 1)).set 42 none
    Z := List.replicate PARAM_M (some 1) }

theorem xgcdFuel_bezout :
    ∀ (fuel x y : ℕ), x < fuel →
      (xgcdFuel fuel x y).1 * x + (xgcdFuel fuel x y).2 * y = Nat.gcd x y := by
  intro fuel
  induction fuel with
  | zero => intro x y h; omega
  | succ fuel ih =>
    intro x y h
    by_cases hx : x = 0
    · subst hx
      show (0 : ℤ) * 0 + 1 * (y : ℤ) = (Nat.gcd 0 y : ℤ)
      rw [Nat.gcd_zero_left]
      ring
    · have hlt : y % x < fuel := by
        have h1 : y % x < x := Nat.mod_lt _ (Nat.pos_of_ne_zero hx)
        omega
      have hrec := ih (y % x) x hlt
      have hgcd : Nat.gcd x y = Nat.gcd (y % x) x := Nat.gcd_rec x y
      have hyx : ((y % x : ℕ) : ℤ) = (y : ℤ) - ((y / x : ℕ) : ℤ) * x := by
        have h2 : ((y % x : ℕ) : ℤ) + ((x : ℕ) : ℤ) * ((y / x : ℕ) : ℤ) = (y : ℤ) := by
          exact_mod_cast congrArg (Nat.cast : ℕ → ℤ) (Nat.mod_add_div y x)
        linarith
      unfold xgcdFuel
      simp only [hx, if_false]
      rw [hgcd, ← hrec, hyx]
      ring

theorem egcd_bezout (x y : ℕ) : egcdA x y * x + egcdB x y * y = Nat.gcd x y :=
  xgcdFuel_bezout (x + 1) x y (Nat.lt_succ_self x)

theorem probablyPrime_iff (n : ℕ) : probablyPrime n = true ↔ n.Prime := by
  unfold probablyPrime
  rw [Nat.prime_def_lt']
  simp only [Bool.and_eq_true, List.all_eq_true, List.mem_range, decide_eq_true_eq,
    Bool.or_eq_true]
  constructor
  · rintro ⟨h2, hall⟩
    refine ⟨h2, fun m hm2 hmn hdvd => ?_⟩
    rcases hall m hmn with h | h
    · omega
    · exact h hdvd
  · rintro ⟨h2, hall⟩
    refine ⟨h2, fun d hdn => ?_⟩
    by_cases hd2 : d < 2
    · exact Or.inl hd2
    · exact Or.inr (hall d (by omega) hdn)

theorem bytesToNat_append (l : List ℕ) (b : ℕ) :
    bytesToNat (l ++ [b]) = bytesToNat l * 256 + b := by
  simp [bytesToNat, List.foldl_append]

theorem bytesToNat_natToBytesFuel :
    ∀ (fuel n : ℕ), n ≤ fuel → bytesToNat (natToBytesFuel fuel n) = n := by
  intro fuel
  induction fuel with
  | zero =>
    intro n h
    have : n = 0 := by omega
    subst this
    rfl
  | succ fuel ih =>
    intro n h
    by_cases h0 : n = 0
    · subst h0; rfl
    · unfold natToBytesFuel
      simp only [h0, if_false]
      have hdiv : n / 256 ≤ fuel := by
        have := Nat.div_lt_self (Nat.pos_of_ne_zero h0) (by omega : 1 < 256)
        omega
      rw [bytesToNat_append, ih (n / 256) hdiv]
      omega

theorem bytesToNat_natToBytes (n : ℕ) : bytesToNat (natToBytes n) = n :=
  bytesToNat_natToBytesFuel n n (Nat.le_refl n)

/-! ## Bridges between the executable embedding and `ZMod` -/

theorem intCast_emod_dvd (z : ℤ) (p n : ℕ) (h : p ∣ n) :
    ((z % (n : ℤ) : ℤ) : ZMod p) = (z : ZMod p) := by
  rw [ZMod.intCast_eq_intCast_iff']
  exact Int.emod_emod_of_dvd z (Int.natCast_dvd_natCast.mpr h)

theorem intCast_emod_self (z : ℤ) (n : ℕ) :
    ((z % (n : ℤ) : ℤ) : ZMod n) = (z : ZMod n) :=
  intCast_emod_dvd z n n dvd_rfl

/-- A square root of `x` modulo a positive `p` exists iff `PrimeModSqrt`
finds one. -/
theorem primeModSqrt_ne_nil_iff (x : ℤ) (p : ℕ) (hp : 0 < p) :
    PrimeModSqrt x p ≠ [] ↔ IsSquare ((x : ℤ) : ZMod p) := by
  haveI : NeZero p := ⟨hp.ne'⟩
  constructor
  · intro hne
    rcases hfind : (List.range p).find? (fun r : ℕ => ((r : ℤ) * r) % p = x % p) with _ | r
    · simp [PrimeModSqrt, hfind] at hne
    · have hpred := List.find?_some hfind
      have : ((r : ℤ) * r : ℤ) % p = x % p := by simpa using hpred
      refine ⟨((r : ℕ) : ZMod p), ?_⟩
      have := (ZMod.intCast_eq_intCast_iff' _ _ _).mpr this
      push_cast at this ⊢
      rw [← this]
  · rintro ⟨c, hc⟩
    have hval : ((c.val : ℤ) * c.val : ℤ) % p = x % p := by
      rw [← ZMod.intCast_eq_intCast_iff']
      push_cast
      rw [ZMod.natCast_val, ZMod.cast_id]
      exact hc.symm
    have hmem : (c.val : ℕ) ∈ List.range p := List.mem_range.mpr (ZMod.val_lt c)
    have : ((List.range p).find? (fun r : ℕ => ((r : ℤ) * r) % p = x % p)).isSome := by
      rw [List.find?_isSome]
      exact ⟨c.val, hmem, by simpa using hval⟩
    rcases hfind : (List.range p).find? (fun r : ℕ => ((r : ℤ) * r) % p = x % p) with _ | r
    · rw [hfind] at this; simp at this
    · simp [PrimeModSqrt, hfind]

/-- The second entry of `PrimeModSqrt` is the negation of the first. -/
theorem primeModSqrt_neg_cast (p : ℕ) (r : ℕ) :
    ((((p : ℤ) - (r : ℕ)) % p : ℤ) : ZMod p) = -((r : ℕ) : ZMod p) := by
  rw [intCast_emod_self]
  push_cast
  rw [ZMod.natCast_self]
  ring

/-- Every entry of `PrimeModSqrt x p` squares to `x` modulo `p`. -/
theorem primeModSqrt_root {x : ℤ} {p : ℕ} {r : ℤ} (hr : r ∈ PrimeModSqrt x p) :
    ((r : ZMod p) * (r : ZMod p)) = (x : ZMod p) := by
  rcases hfind : (List.range p).find? (fun s : ℕ => ((s : ℤ) * s) % p = x % p) with _ | r₀
  · simp [PrimeModSqrt, hfind] at hr
  · have hpred := List.find?_some hfind
    have hroot : ((r₀ : ℤ) * r₀ : ℤ) % p = x % p := by simpa using hpred
    have hroot' : ((r₀ : ℕ) : ZMod p) * ((r₀ : ℕ) : ZMod p) = (x : ZMod p) := by
      have h2 := (ZMod.intCast_eq_intCast_iff' _ _ _).mpr hroot
      push_cast at h2
      exact h2
    simp only [PrimeModSqrt, hfind, List.mem_cons, List.mem_singleton] at hr
    rcases hr with h | h | h
    · rw [h]; push_cast; exact hroot'
    · rw [h, primeModSqrt_neg_cast, neg_mul_neg]; exact hroot'
    · simp at h

theorem compModSqrt_eq (x : ℤ) (p q n : ℕ) :
    CompModSqrt x p q n =
      (PrimeModSqrt x p).flatMap fun rp => (PrimeModSqrt x q).map fun rq =>
        crtComb p q n rp rq := rfl

theorem mem_compModSqrt {x : ℤ} {p q n : ℕ} {r : ℤ} :
    r ∈ CompModSqrt x p q n ↔
      ∃ rp ∈ PrimeModSqrt x p, ∃ rq ∈ PrimeModSqrt x q, r = crtComb p q n rp rq := by
  rw [compModSqrt_eq]
  simp only [List.mem_flatMap, List.mem_map]
  constructor
  · rintro ⟨rp, h1, rq, h2, rfl⟩
    exact ⟨rp, h1, rq, h2, rfl⟩
  · rintro ⟨rp, h1, rq, h2, rfl⟩
    exact ⟨rp, h1, rq, h2, rfl⟩

theorem compModSqrt_eq_nil_iff (x : ℤ) (p q n : ℕ) :
    CompModSqrt x p q n = [] ↔ PrimeModSqrt x p = [] ∨ PrimeModSqrt x q = [] := by
  rw [compModSqrt_eq]
  rcases hp : PrimeModSqrt x p with _ | ⟨rp, rps⟩
  · simp
  · rcases hq : PrimeModSqrt x q with _ | ⟨rq, rqs⟩
    · simp
    · simp

/-- The Bézout identity `a*p + b*q = 1` for coprime `p`, `q`, with the
coefficients `CompModSqrt` computes via `big.Int.GCD`. -/
theorem bezout_eq_one {p q : ℕ} (hco : Nat.Coprime p q) :
    egcdA p q * p + egcdB p q * q = 1 := by
  have h := egcd_bezout p q
  rw [hco] at h
  push_cast at h
  linarith

theorem crtComb_cast_left {p q n : ℕ} (hn : n = p * q) (hco : Nat.Coprime p q)
    (rp rq : ℤ) : ((crtComb p q n rp rq : ℤ) : ZMod p) = (rp : ZMod p) := by
  have hb : ((egcdB p q : ℤ) : ZMod p) * ((q : ℕ) : ZMod p) = 1 := by
    have h2 : ((egcdA p q * (p : ℕ) + egcdB p q * (q : ℕ) : ℤ) : ZMod p)
        = ((1 : ℤ) : ZMod p) := by rw [bezout_eq_one hco]
    push_cast at h2
    rw [ZMod.natCast_self] at h2
    rw [← h2]
    ring
  have hdvd : p ∣ n := hn ▸ Dvd.intro q rfl
  unfold crtComb modAdd modMul
  rw [intCast_emod_dvd _ _ _ hdvd, Int.cast_add,
    intCast_emod_dvd _ _ _ hdvd, intCast_emod_dvd _ _ _ hdvd,
    Int.cast_mul, Int.cast_mul,
    intCast_emod_dvd _ _ _ hdvd, intCast_emod_dvd _ _ _ hdvd]
  push_cast
  rw [ZMod.natCast_self]
  rw [mul_zero, zero_mul, add_zero, hb, one_mul]

theorem crtComb_cast_right {p q n : ℕ} (hn : n = p * q) (hco : Nat.Coprime p q)
    (rp rq : ℤ) : ((crtComb p q n rp rq : ℤ) : ZMod q) = (rq : ZMod q) := by
  have ha : ((egcdA p q : ℤ) : ZMod q) * ((p : ℕ) : ZMod q) = 1 := by
    have h2 : ((egcdA p q * (p : ℕ) + egcdB p q * (q : ℕ) : ℤ) : ZMod q)
        = ((1 : ℤ) : ZMod q) := by rw [bezout_eq_one hco]
    push_cast at h2
    rw [ZMod.natCast_self] at h2
    rw [← h2]
    ring
  have hdvd : q ∣ n := hn ▸ Dvd.intro_left p rfl
  unfold crtComb modAdd modMul
  rw [intCast_emod_dvd _ _ _ hdvd, Int.cast_add,
    intCast_emod_dvd _ _ _ hdvd, intCast_emod_dvd _ _ _ hdvd,
    Int.cast_mul, Int.cast_mul,
    intCast_emod_dvd _ _ _ hdvd, intCast_emod_dvd _ _ _ hdvd]
  push_cast
  rw [ZMod.natCast_self]
  rw [mul_zero, zero_mul, zero_add, ha, one_mul]

/-- Two congruences at coprime moduli combine to one at the product. -/
theorem cast_mul_combine {p q : ℕ} (hco : Nat.Coprime p q) {a b : ℤ}
    (hp : (a : ZMod p) = (b : ZMod p)) (hq : (a : ZMod q) = (b : ZMod q)) :
    (a : ZMod (p * q)) = (b : ZMod (p * q)) := by
  rw [ZMod.intCast_eq_intCast_iff, Int.modEq_iff_dvd] at hp hq ⊢
  push_cast
  exact (Nat.isCoprime_iff_coprime.mpr hco).mul_dvd hp hq

/-- Every entry of `CompModSqrt x p q (p*q)` is a square root of `x`
modulo `p*q`. -/
theorem compModSqrt_sq {x : ℤ} {p q : ℕ} (hco : Nat.Coprime p q) {r : ℤ}
    (hr : r ∈ CompModSqrt x p q (p * q)) :
    ((r * r : ℤ) : ZMod (p * q)) = (x : ZMod (p * q)) := by
  rcases mem_compModSqrt.mp hr with ⟨rp, hrp, rq, hrq, rfl⟩
  refine cast_mul_combine hco ?_ ?_
  · rw [Int.cast_mul, crtComb_cast_left rfl hco]
    exact primeModSqrt_root hrp
  · rw [Int.cast_mul, crtComb_cast_right rfl hco]
    exact primeModSqrt_root hrq

/-- Every entry of `CompMod4thRt x p q (p*q)` is a fourth root of `x`
modulo `p*q`. -/
theorem compMod4thRt_pow {x : ℤ} {p q : ℕ} (hco : Nat.Coprime p q) {r : ℤ}
    (hr : r ∈ CompMod4thRt x p q (p * q)) :
    ((r ^ 4 : ℤ) : ZMod (p * q)) = (x : ZMod (p * q)) := by
  rcases List.mem_flatMap.mp hr with ⟨s, hs, hrs⟩
  have h1 := compModSqrt_sq hco hrs
  have h2 := compModSqrt_sq hco hs
  have : ((r ^ 4 : ℤ) : ZMod (p * q)) = ((r * r : ℤ) : ZMod (p * q)) * ((r * r : ℤ) : ZMod (p * q)) := by
    push_cast
    ring
  rw [this, h1, ← Int.cast_mul, h2]

theorem intCast_zmod_eq_zero_iff_emod (x : ℤ) (p : ℕ) :
    (x : ZMod p) = 0 ↔ x % (p : ℤ) = 0 := by
  rw [ZMod.intCast_zmod_eq_zero_iff_dvd]
  exact Int.dvd_iff_emod_eq_zero

theorem legendreE_eq_zero_iff {x : ℤ} {p : ℕ} :
    legendreE x p = 0 ↔ (x : ZMod p) = 0 := by
  unfold legendreE
  rw [intCast_zmod_eq_zero_iff_emod]
  split_ifs with h1 h2 <;> simp [h1]

theorem legendreE_eq_one_iff {x : ℤ} {p : ℕ} (hp : 0 < p) (hx : (x : ZMod p) ≠ 0) :
    legendreE x p = 1 ↔ IsSquare ((x : ℤ) : ZMod p) := by
  have hz : ¬(x % (p : ℤ) = 0) := by
    rw [← intCast_zmod_eq_zero_iff_emod]
    exact hx
  unfold legendreE
  rw [if_neg hz]
  split_ifs with h2
  · simp only [true_iff]
    exact (primeModSqrt_ne_nil_iff x p hp).mp h2
  · constructor
    · intro h; exact absurd h (by norm_num)
    · intro h; exact absurd ((primeModSqrt_ne_nil_iff x p hp).mpr h) h2

theorem legendreE_eq_neg_one_iff {x : ℤ} {p : ℕ} (hp : 0 < p) (hx : (x : ZMod p) ≠ 0) :
    legendreE x p = -1 ↔ ¬IsSquare ((x : ℤ) : ZMod p) := by
  have hz : ¬(x % (p : ℤ) = 0) := by
    rw [← intCast_zmod_eq_zero_iff_emod]
    exact hx
  unfold legendreE
  rw [if_neg hz]
  split_ifs with h2
  · constructor
    · intro h; exact absurd h (by norm_num)
    · intro h; exact absurd ((primeModSqrt_ne_nil_iff x p hp).mp h2) h
  · simp only [true_iff]
    intro h
    exact absurd ((primeModSqrt_ne_nil_iff x p hp).mpr h) h2

theorem legendreE_cases (x : ℤ) (p : ℕ) :
    legendreE x p = 0 ∨ legendreE x p = 1 ∨ legendreE x p = -1 := by
  unfold legendreE
  split_ifs <;> simp

/-! ## Quadratic residues modulo a prime congruent to 3 mod 4 -/

theorem isSquare_or_isSquare_neg {p : ℕ} [Fact p.Prime] (hp4 : p % 4 = 3)
    (u : ZMod p) : IsSquare u ∨ IsSquare (-u) := by
  by_cases hu : u = 0
  · left; exact hu ▸ ⟨0, by ring⟩
  · by_contra hcon
    push_neg at hcon
    obtain ⟨h1, h2⟩ := hcon
    have hχ1 : quadraticChar (ZMod p) u = -1 :=
      quadraticChar_neg_one_iff_not_isSquare.mpr h1
    have hχ2 : quadraticChar (ZMod p) (-u) = -1 :=
      quadraticChar_neg_one_iff_not_isSquare.mpr h2
    have hmul : quadraticChar (ZMod p) (-u) =
        quadraticChar (ZMod p) (-1) * quadraticChar (ZMod p) u := by
      rw [← map_mul]
      ring_nf
    have hneg1 : quadraticChar (ZMod p) (-1) = 1 := by
      rw [hχ1, hχ2] at hmul
      omega
    have hne : (-1 : ZMod p) ≠ 0 := by
      intro h
      have : (1 : ZMod p) = 0 := by
        rw [← neg_neg (1 : ZMod p), h, neg_zero]
      exact one_ne_zero this
    have : IsSquare (-1 : ZMod p) := (quadraticChar_one_iff_isSquare hne).mp hneg1
    exact (ZMod.exists_sq_eq_neg_one_iff.mp this) hp4

theorem nonsq_mul_nonsq {p : ℕ} [Fact p.Prime] {u v : ZMod p}
    (hu : ¬IsSquare u) (hv : ¬IsSquare v) : IsSquare (u * v) := by
  have hχ : quadraticChar (ZMod p) (u * v) = 1 := by
    rw [map_mul, quadraticChar_neg_one_iff_not_isSquare.mpr hu,
      quadraticChar_neg_one_iff_not_isSquare.mpr hv]
    ring
  have hne : u * v ≠ 0 := by
    intro h
    rw [h] at hχ
    rw [quadraticChar_zero] at hχ
    omega
  exact (quadraticChar_one_iff_isSquare hne).mp hχ

theorem sq_mul_nonsq {p : ℕ} [Fact p.Prime] {u v : ZMod p}
    (hu : IsSquare u) (hu0 : u ≠ 0) (hv : ¬IsSquare v) : ¬IsSquare (u * v) := by
  have hχ : quadraticChar (ZMod p) (u * v) = -1 := by
    rw [map_mul, (quadraticChar_one_iff_isSquare hu0).mpr hu,
      quadraticChar_neg_one_iff_not_isSquare.mpr hv]
    ring
  exact quadraticChar_neg_one_iff_not_isSquare.mp hχ

theorem neg_of_nonsq {p : ℕ} [Fact p.Prime] (hp4 : p % 4 = 3) {u : ZMod p}
    (hu : ¬IsSquare u) : IsSquare (-u) :=
  (isSquare_or_isSquare_neg hp4 u).resolve_left hu

theorem twistYi_cast_ff {p n : ℕ} (hdvd : p ∣ n) (w y : ℤ) :
    ((twistYi w y false false n : ℤ) : ZMod p) = (y : ZMod p) := by
  unfold twistYi
  rw [intCast_emod_dvd _ _ _ hdvd]
  simp

theorem twistYi_cast_ft {p n : ℕ} (hdvd : p ∣ n) (w y : ℤ) :
    ((twistYi w y false true n : ℤ) : ZMod p) = (y : ZMod p) * (w : ZMod p) := by
  unfold twistYi
  rw [intCast_emod_dvd _ _ _ hdvd]
  simp

theorem twistYi_cast_tf {p n : ℕ} (hdvd : p ∣ n) (w y : ℤ) :
    ((twistYi w y true false n : ℤ) : ZMod p) = -(y : ZMod p) := by
  unfold twistYi
  rw [intCast_emod_dvd _ _ _ hdvd]
  simp

theorem twistYi_cast_tt {p n : ℕ} (hdvd : p ∣ n) (w y : ℤ) :
    ((twistYi w y true true n : ℤ) : ZMod p) = -((y : ZMod p) * (w : ZMod p)) := by
  unfold twistYi
  rw [intCast_emod_dvd _ _ _ hdvd]
  simp

/-- Under a Blum structure (`p, q ≡ 3 mod 4`) and `Jacobi(w, pq) = -1`
(so `w` is a square modulo exactly one of the two primes), one of the four
sign/twist combinations turns any `y` into a value that is a quadratic
residue modulo both primes. -/
theorem twist_select {p q N : ℕ} [Fact p.Prime] [Fact q.Prime]
    (hp4 : p % 4 = 3) (hq4 : q % 4 = 3) (hdp : p ∣ N) (hdq : q ∣ N)
    (w y : ℤ) (hwp0 : (w : ZMod p) ≠ 0) (hwq0 : (w : ZMod q) ≠ 0)
    (hside : (IsSquare (w : ZMod p) ∧ ¬IsSquare (w : ZMod q)) ∨
             (¬IsSquare (w : ZMod p) ∧ IsSquare (w : ZMod q))) :
    ∃ a b : Bool, IsSquare ((twistYi w y a b N : ℤ) : ZMod p) ∧
                  IsSquare ((twistYi w y a b N : ℤ) : ZMod q) := by
  by_cases hyp : IsSquare (y : ZMod p) <;> by_cases hyq : IsSquare (y : ZMod q)
  · exact ⟨false, false, by rw [twistYi_cast_ff hdp]; exact hyp,
      by rw [twistYi_cast_ff hdq]; exact hyq⟩
  · -- y is a square mod p but not mod q
    rcases hside with ⟨hwp, hwq⟩ | ⟨hwp, hwq⟩
    · -- w is a square mod p, not mod q: multiply by w
      exact ⟨false, true, by rw [twistYi_cast_ft hdp]; exact hyp.mul hwp,
        by rw [twistYi_cast_ft hdq]; exact nonsq_mul_nonsq hyq hwq⟩
    · -- w is a square mod q, not mod p: negate and multiply by w
      refine ⟨true, true, ?_, ?_⟩
      · rw [twistYi_cast_tt hdp]
        by_cases hy0 : (y : ZMod p) = 0
        · rw [hy0, zero_mul, neg_zero]
          exact ⟨0, by ring⟩
        · exact neg_of_nonsq hp4 (sq_mul_nonsq hyp hy0 hwp)
      · rw [twistYi_cast_tt hdq]
        have : ¬IsSquare ((y : ZMod q) * w) := by
          rw [mul_comm]
          exact sq_mul_nonsq hwq hwq0 hyq
        exact neg_of_nonsq hq4 this
  · -- y is a square mod q but not mod p
    rcases hside with ⟨hwp, hwq⟩ | ⟨hwp, hwq⟩
    · -- w is a square mod p, not mod q: negate and multiply by w
      refine ⟨true, true, ?_, ?_⟩
      · rw [twistYi_cast_tt hdp]
        have : ¬IsSquare ((y : ZMod p) * w) := by
          rw [mul_comm]
          exact sq_mul_nonsq hwp hwp0 hyp
        exact neg_of_nonsq hp4 this
      · rw [twistYi_cast_tt hdq]
        by_cases hy0 : (y : ZMod q) = 0
        · rw [hy0, zero_mul, neg_zero]
          exact ⟨0, by ring⟩
        · exact neg_of_nonsq hq4 (sq_mul_nonsq hyq hy0 hwq)
    · -- w is a square mod q, not mod p: multiply by w
      exact ⟨false, true, by rw [twistYi_cast_ft hdp]; exact nonsq_mul_nonsq hyp hwp,
        by rw [twistYi_cast_ft hdq]; exact hyq.mul hwq⟩
  · -- y is a nonsquare mod both: negate
    exact ⟨true, false, by rw [twistYi_cast_tf hdp]; exact neg_of_nonsq hp4 hyp,
      by rw [twistYi_cast_tf hdq]; exact neg_of_nonsq hq4 hyq⟩

/-- When `x` is a quadratic residue modulo a prime `p ≡ 3 mod 4`, one of the
two entries of `PrimeModSqrt x p` is itself a quadratic residue modulo `p`. -/
theorem exists_mem_primeModSqrt_isSquare {p : ℕ} [hp : Fact p.Prime]
    (hp4 : p % 4 = 3) (x : ℤ) (hx : IsSquare ((x : ℤ) : ZMod p)) :
    ∃ r ∈ PrimeModSqrt x p, IsSquare ((r : ℤ) : ZMod p) := by
  have hppos : 0 < p := hp.out.pos
  have hne := (primeModSqrt_ne_nil_iff x p hppos).mpr hx
  rcases hfind : (List.range p).find? (fun s : ℕ => ((s : ℤ) * s) % p = x % p) with _ | r₀
  · exact absurd (by simp [PrimeModSqrt, hfind]) hne
  · have hlist : PrimeModSqrt x p = [(r₀ : ℤ), ((p : ℤ) - r₀) % p] := by
      simp [PrimeModSqrt, hfind]
    rcases isSquare_or_isSquare_neg hp4 ((r₀ : ℕ) : ZMod p) with h | h
    · refine ⟨(r₀ : ℤ), by rw [hlist]; exact List.mem_cons_self _ _, ?_⟩
      push_cast
      exact h
    · refine ⟨((p : ℤ) - r₀) % p, by rw [hlist]; simp, ?_⟩
      rw [primeModSqrt_neg_cast]
      exact h

/-- When `x` is a quadratic residue modulo both primes of a Blum pair, the
quartic-root search `CompMod4thRt` succeeds. -/
theorem fourthRt_exists {p q : ℕ} [hp : Fact p.Prime] [hq : Fact q.Prime]
    (hp4 : p % 4 = 3) (hq4 : q % 4 = 3) (hpq : p ≠ q) (x : ℤ)
    (hxp : IsSquare ((x : ℤ) : ZMod p)) (hxq : IsSquare ((x : ℤ) : ZMod q)) :
    CompMod4thRt x p q (p * q) ≠ [] := by
  have hco : Nat.Coprime p q := (Nat.coprime_primes hp.out hq.out).mpr hpq
  obtain ⟨rp, hrpmem, hrpsq⟩ := exists_mem_primeModSqrt_isSquare hp4 x hxp
  obtain ⟨rq, hrqmem, hrqsq⟩ := exists_mem_primeModSqrt_isSquare hq4 x hxq
  set s := crtComb p q (p * q) rp rq with hs_def
  have hs : s ∈ CompModSqrt x p q (p * q) :=
    mem_compModSqrt.mpr ⟨rp, hrpmem, rq, hrqmem, rfl⟩
  have hsp : IsSquare ((s : ℤ) : ZMod p) := by
    rw [hs_def, crtComb_cast_left rfl hco]
    exact hrpsq
  have hsq : IsSquare ((s : ℤ) : ZMod q) := by
    rw [hs_def, crtComb_cast_right rfl hco]
    exact hrqsq
  have h2 : CompModSqrt s p q (p * q) ≠ [] := by
    rw [Ne, compModSqrt_eq_nil_iff]
    push_neg
    exact ⟨(primeModSqrt_ne_nil_iff s p hp.out.pos).mpr hsp,
      (primeModSqrt_ne_nil_iff s q hq.out.pos).mpr hsq⟩
  rcases ht : CompModSqrt s p q (p * q) with _ | ⟨t, ts⟩
  · exact absurd ht h2
  · have : t ∈ CompMod4thRt x p q (p * q) :=
      List.mem_flatMap.mpr ⟨s, hs, by rw [ht]; exact List.mem_cons_self _ _⟩
    exact List.ne_nil_of_mem this

/-- `Jacobi(w, pq) = -1` forces `w` to be invertible modulo both primes and a
square modulo exactly one of them. -/
theorem jacobi_neg_one_cases {w : ℤ} {p q : ℕ} (hp : 0 < p) (hq : 0 < q)
    (hw : jacobiPQ w p q = -1) :
    (w : ZMod p) ≠ 0 ∧ (w : ZMod q) ≠ 0 ∧
      ((IsSquare ((w : ℤ) : ZMod p) ∧ ¬IsSquare ((w : ℤ) : ZMod q)) ∨
       (¬IsSquare ((w : ℤ) : ZMod p) ∧ IsSquare ((w : ℤ) : ZMod q))) := by
  unfold jacobiPQ at hw
  have hp0 : (w : ZMod p) ≠ 0 := by
    intro h
    rw [(legendreE_eq_zero_iff).mpr h, zero_mul] at hw
    exact absurd hw (by norm_num)
  have hq0 : (w : ZMod q) ≠ 0 := by
    intro h
    rw [(legendreE_eq_zero_iff).mpr h, mul_zero] at hw
    exact absurd hw (by norm_num)
  refine ⟨hp0, hq0, ?_⟩
  rcases legendreE_cases w p with h1 | h1 | h1
  · exact absurd ((legendreE_eq_zero_iff).mp h1) hp0
  · rcases legendreE_cases w q with h2 | h2 | h2
    · exact absurd ((legendreE_eq_zero_iff).mp h2) hq0
    · rw [h1, h2] at hw; exact absurd hw (by norm_num)
    · exact Or.inl ⟨(legendreE_eq_one_iff hp hp0).mp h1,
        (legendreE_eq_neg_one_iff hq hq0).mp h2⟩
  · rcases legendreE_cases w q with h2 | h2 | h2
    · exact absurd ((legendreE_eq_zero_iff).mp h2) hq0
    · exact Or.inr ⟨(legendreE_eq_neg_one_iff hp hp0).mp h1,
        (legendreE_eq_one_iff hq hq0).mp h2⟩
    · rw [h1, h2] at hw; exact absurd hw (by norm_num)

/-- For a Blum pair `p, q` and a witness with `Jacobi(w, pq) = -1`, some
sign/twist combination of any challenge value has a quartic root. -/
theorem blum_fourth_exists {p q : ℕ} {w : ℤ}
    (pp : p.Prime) (qp : q.Prime) (hpq : p ≠ q)
    (hp4 : p % 4 = 3) (hq4 : q % 4 = 3) (hw : jacobiPQ w p q = -1) (y : ℤ) :
    ∃ a b : Bool, CompMod4thRt (twistYi w y a b (p * q)) p q (p * q) ≠ [] := by
  haveI : Fact p.Prime := ⟨pp⟩
  haveI : Fact q.Prime := ⟨qp⟩
  obtain ⟨h1, h2, hside⟩ := jacobi_neg_one_cases pp.pos qp.pos hw
  obtain ⟨a, b, hsp, hsq⟩ := twist_select hp4 hq4 (dvd_mul_right p q)
    (dvd_mul_left q p) w y h1 h2 hside
  exact ⟨a, b, fourthRt_exists hp4 hq4 hpq _ hsp hsq⟩

/-- If some combination has a quartic root, `DefineXi` does not panic. -/
theorem defineXi_ne_none {w yi : ℤ} {p q N : ℕ}
    (hne : ∃ a b : Bool, CompMod4thRt (twistYi w yi a b N) p q N ≠ []) :
    DefineXi w yi p q N ≠ none := by
  obtain ⟨a, b, hab⟩ := hne
  unfold DefineXi
  intro hnone
  rw [List.findSome?_eq_none_iff] at hnone
  have hmem : (a, b) ∈ [(false, false), (false, true), (true, false), (true, true)] := by
    cases a <;> cases b <;> simp
  have := hnone (a, b) hmem
  rcases hl : CompMod4thRt (twistYi w yi a b N) p q N with _ | ⟨r, rs⟩
  · exact hab hl
  · rw [hl] at this
    simp at this

/-- For a Blum pair and a `Jacobi = -1` witness, `DefineXi` always
returns. -/
theorem blum_defineXi {p q : ℕ} {w : ℤ}
    (pp : p.Prime) (qp : q.Prime) (hpq : p ≠ q)
    (hp4 : p % 4 = 3) (hq4 : q % 4 = 3) (hw : jacobiPQ w p q = -1) (y : ℤ) :
    DefineXi w y p q (p * q) ≠ none :=
  defineXi_ne_none (blum_fourth_exists pp qp hpq hp4 hq4 hw y)

/-! ## Universal exponent property of a squarefree two-prime modulus -/

theorem zmodp_pow_aux {p : ℕ} [Fact p.Prime] (m : ℕ) (a : ZMod p) :
    a ^ (m * (p - 1) + 1) = a := by
  by_cases ha : a = 0
  · subst ha
    rw [zero_pow (by omega : m * (p - 1) + 1 ≠ 0)]
  · rw [pow_add, pow_one, pow_mul', ZMod.pow_card_sub_one_eq_one ha, one_pow, one_mul]

/-- Any integer raised to `k*(p-1)*(q-1) + 1` is itself modulo `p*q`: the
universal exponent property of the squarefree modulus. -/
theorem int_pow_blum {p q : ℕ} (pp : p.Prime) (qp : q.Prime) (hpq : p ≠ q)
    (k : ℕ) (z : ℤ) :
    ((z ^ (k * ((p - 1) * (q - 1)) + 1) : ℤ) : ZMod (p * q)) = (z : ZMod (p * q)) := by
  haveI : Fact p.Prime := ⟨pp⟩
  haveI : Fact q.Prime := ⟨qp⟩
  have hco : Nat.Coprime p q := (Nat.coprime_primes pp qp).mpr hpq
  refine cast_mul_combine hco ?_ ?_
  · have hE : k * ((p - 1) * (q - 1)) + 1 = (k * (q - 1)) * (p - 1) + 1 := by ring
    rw [hE]
    push_cast
    exact zmodp_pow_aux _ _
  · have hE : k * ((p - 1) * (q - 1)) + 1 = (k * (p - 1)) * (q - 1) + 1 := by ring
    rw [hE]
    push_cast
    exact zmodp_pow_aux _ _

theorem zmod_pow_eq_self {p q : ℕ} (pp : p.Prime) (qp : q.Prime) (hpq : p ≠ q)
    (k : ℕ) (x : ZMod (p * q)) : x ^ (k * ((p - 1) * (q - 1)) + 1) = x := by
  haveI : NeZero (p * q) := ⟨Nat.mul_ne_zero pp.pos.ne' qp.pos.ne'⟩
  have hx : x = ((x.val : ℤ) : ZMod (p * q)) := by
    push_cast
    rw [ZMod.natCast_val, ZMod.cast_id]
  rw [hx, ← Int.cast_pow]
  exact int_pow_blum pp qp hpq k _

theorem exponent_decompose {phiN E : ℕ} (hE : E % phiN = 1) :
    E = (E / phiN) * phiN + 1 := by
  conv_lhs => rw [← Nat.div_add_mod E phiN]
  rw [hE, Nat.mul_comm]

/-- Correctness of `modInverse` on coprime arguments. -/
theorem modInverse_mul {x n : ℕ} (hco : Nat.gcd x n = 1) (hn : 1 < n) :
    (modInverse x n * x) % n = 1 := by
  have hn0 : (n : ℤ) ≠ 0 := by positivity
  have hg : Nat.gcd (x % n) n = 1 := by
    rw [← Nat.gcd_rec, Nat.gcd_comm]
    exact hco
  have hbez := egcd_bezout (x % n) n
  rw [hg] at hbez
  have htn : ((egcdA (x % n) n % (n : ℤ)).toNat : ℤ) = egcdA (x % n) n % (n : ℤ) :=
    Int.toNat_of_nonneg (Int.emod_nonneg _ hn0)
  have e1 : (egcdA (x % n) n % (n : ℤ)) * (x : ℤ) ≡
      egcdA (x % n) n * (x : ℤ) [ZMOD (n : ℤ)] :=
    Int.ModEq.mul_right _ (Int.emod_emod_of_dvd _ dvd_rfl)
  have e2 : egcdA (x % n) n * (x : ℤ) ≡
      egcdA (x % n) n * ((x : ℤ) % n) [ZMOD (n : ℤ)] :=
    Int.ModEq.mul_left _ ((Int.emod_emod_of_dvd _ dvd_rfl).symm)
  have e3 : egcdA (x % n) n * ((x : ℤ) % n) ≡ 1 [ZMOD (n : ℤ)] := by
    rw [Int.modEq_iff_dvd]
    have hx : ((x % n : ℕ) : ℤ) = (x : ℤ) % n := by push_cast; ring
    refine ⟨egcdB (x % n) n, ?_⟩
    rw [← hx]
    linear_combination -hbez
  have hmod : ((modInverse x n * x : ℕ) : ℤ) % n = 1 := by
    push_cast
    unfold modInverse
    rw [htn]
    have := (e1.trans (e2.trans e3))
    unfold Int.ModEq at this
    rw [this]
    exact Int.emod_eq_of_lt (by norm_num) (by exact_mod_cast hn)
  exact_mod_cast hmod

/-- The honest responder's value `z = y^(N⁻¹ mod φ) mod N` passes the
verifier's check `z^N mod N = y`, for every `y ∈ [0, N)`. -/
theorem honest_zcheck {p q N phiN : ℕ} (pp : p.Prime) (qp : q.Prime) (hpq : p ≠ q)
    (hN : N = p * q) (hphi : phiN = (p - 1) * (q - 1)) (hphi1 : 1 < phiN)
    (hgcd : Nat.gcd N phiN = 1) {y : ℤ} (hy0 : 0 ≤ y) (hy1 : y < (N : ℤ)) :
    expMod (expMod y (modInverse N phiN) N) N N = y := by
  have hpow : ∀ (a : ℤ) (k : ℕ), (a % (N : ℤ)) ^ k % N = a ^ k % N := fun a k =>
    Int.ModEq.pow k (Int.emod_emod_of_dvd a dvd_rfl)
  unfold expMod
  rw [hpow, ← pow_mul]
  have hE : (modInverse N phiN * N) % phiN = 1 := modInverse_mul hgcd hphi1
  have hdec := exponent_decompose hE
  have hcast : ((y ^ (modInverse N phiN * N) : ℤ) : ZMod N) = (y : ZMod N) := by
    rw [hdec, hphi]
    subst hN
    exact int_pow_blum pp qp hpq _ y
  have h2 := (ZMod.intCast_eq_intCast_iff' _ _ _).mp hcast
  rw [h2, Int.emod_eq_of_lt hy0 hy1]

/-- Raising to the `N`-th power is injective modulo `N` when
`gcd(N, φ(N)) = 1`. -/
theorem powN_inj {p q N phiN : ℕ} (pp : p.Prime) (qp : q.Prime) (hpq : p ≠ q)
    (hN : N = p * q) (hphi : phiN = (p - 1) * (q - 1)) (hphi1 : 1 < phiN)
    (hgcd : Nat.gcd N phiN = 1) {a b : ℤ}
    (h : (a : ZMod N) ^ N = (b : ZMod N) ^ N) : (a : ZMod N) = (b : ZMod N) := by
  have hE : (modInverse N phiN * N) % phiN = 1 := modInverse_mul hgcd hphi1
  have hdec := exponent_decompose hE
  have h2 : ((a : ZMod N) ^ N) ^ modInverse N phiN =
      ((b : ZMod N) ^ N) ^ modInverse N phiN := by rw [h]
  rw [← pow_mul, ← pow_mul, Nat.mul_comm N (modInverse N phiN), hdec, hphi] at h2
  subst hN
  rw [zmod_pow_eq_self pp qp hpq _ _, zmod_pow_eq_self pp qp hpq _ _] at h2
  exact h2

/-- When all indexed checks pass, the verification loop accepts. -/
theorem modVerifyLoop_none {N : ℕ} {w : ℤ} {X : List ℤ} {A B : List Bool}
    {Z : List ℤ} {y : List ℤ} {l : List ℕ}
    (h : ∀ i ∈ l, expMod (Z.getD i 0) N N = y.getD i 0 ∧
      expMod (X.getD i 0) 4 N =
        twistYi w (y.getD i 0) (A.getD i false) (B.getD i false) N) :
    ModVerifyLoop N w X A B Z y l = none := by
  induction l with
  | nil => rfl
  | cons i rest ih =>
    obtain ⟨h1, h2⟩ := h i (List.mem_cons_self _ _)
    unfold ModVerifyLoop
    simp only [h1, h2, if_pos, if_true]
    exact ih fun j hj => h j (List.mem_cons_of_mem _ hj)

/-- The verification loop skips a passing initial segment. -/
theorem modVerifyLoop_append {N : ℕ} {w : ℤ} {X : List ℤ} {A B : List Bool}
    {Z : List ℤ} {y : List ℤ} {l₁ l₂ : List ℕ}
    (h : ∀ i ∈ l₁, expMod (Z.getD i 0) N N = y.getD i 0 ∧
      expMod (X.getD i 0) 4 N =
        twistYi w (y.getD i 0) (A.getD i false) (B.getD i false) N) :
    ModVerifyLoop N w X A B Z y (l₁ ++ l₂) = ModVerifyLoop N w X A B Z y l₂ := by
  induction l₁ with
  | nil => rfl
  | cons i rest ih =>
    obtain ⟨h1, h2⟩ := h i (List.mem_cons_self _ _)
    rw [List.cons_append]
    conv_lhs => unfold ModVerifyLoop
    simp only [h1, h2, if_pos, if_true]
    exact ih fun j hj => h j (List.mem_cons_of_mem _ hj)

theorem getD_map_lt {α β : Type} (f : α → β) (l : List α) {i : ℕ}
    (h : i < l.length) (d : β) (d' : α) : (l.map f).getD i d = f (l.getD i d') := by
  rw [List.getD_eq_getElem?_getD, List.getD_eq_getElem?_getD, List.getElem?_map,
    List.getElem?_eq_getElem h]
  simp

theorem getD_range_lt {i n : ℕ} (h : i < n) (d : ℕ) :
    (List.range n).getD i d = i := by
  rw [List.getD_eq_getElem?_getD, List.getElem?_range h]
  rfl

theorem mapOption_eq_map {α β : Type} (f : α → Option β) (g : α → β) (l : List α)
    (h : ∀ a ∈ l, f a = some (g a)) : mapOption f l = some (l.map g) := by
  induction l with
  | nil => rfl
  | cons a l ih =>
    unfold mapOption
    rw [h a (List.mem_cons_self _ _), ih fun b hb => h b (List.mem_cons_of_mem _ hb)]
    rfl

theorem getD_mem_of_lt {α : Type} (l : List α) {i : ℕ} (h : i < l.length) (d : α) :
    l.getD i d ∈ l := by
  rw [List.getD_eq_getElem?_getD, List.getElem?_eq_getElem h]
  simp only [Option.getD_some]
  exact List.getElem_mem h

theorem option_eq_some_getD {α : Type} {o : Option α} (h : o ≠ none) (d : α) :
    o = some (o.getD d) := by
  cases o with
  | none => exact absurd rfl h
  | some a => rfl

/-- The root `DefineXi` returns belongs to the quartic-root list of the
twist it selected. -/
theorem defineXi_spec {w yi : ℤ} {p q N : ℕ} {a b : Bool} {x : ℤ}
    (h : DefineXi w yi p q N = some (a, b, x)) :
    x ∈ CompMod4thRt (twistYi w yi a b N) p q N := by
  unfold DefineXi at h
  simp only [List.findSome?_cons, List.findSome?_nil] at h
  rcases h1 : CompMod4thRt (twistYi w yi false false N) p q N with _ | ⟨r1, t1⟩ <;>
    rw [h1] at h
  case cons =>
    simp only [Option.some.injEq, Prod.mk.injEq] at h
    obtain ⟨ha, hb, hx⟩ := h
    subst ha; subst hb; subst hx
    rw [h1]
    exact List.mem_cons_self _ _
  case nil =>
    simp only [] at h
    rcases h2 : CompMod4thRt (twistYi w yi false true N) p q N with _ | ⟨r2, t2⟩ <;>
      rw [h2] at h
    case cons =>
      simp only [Option.some.injEq, Prod.mk.injEq] at h
      obtain ⟨ha, hb, hx⟩ := h
      subst ha; subst hb; subst hx
      rw [h2]
      exact List.mem_cons_self _ _
    case nil =>
      simp only [] at h
      rcases h3 : CompMod4thRt (twistYi w yi true false N) p q N with _ | ⟨r3, t3⟩ <;>
        rw [h3] at h
      case cons =>
        simp only [Option.some.injEq, Prod.mk.injEq] at h
        obtain ⟨ha, hb, hx⟩ := h
        subst ha; subst hb; subst hx
        rw [h3]
        exact List.mem_cons_self _ _
      case nil =>
        simp only [] at h
        rcases h4 : CompMod4thRt (twistYi w yi true true N) p q N with _ | ⟨r4, t4⟩ <;>
          rw [h4] at h
        case cons =>
          simp only [Option.some.injEq, Prod.mk.injEq] at h
          obtain ⟨ha, hb, hx⟩ := h
          subst ha; subst hb; subst hx
          rw [h4]
          exact List.mem_cons_self _ _
        case nil => simp at h

/-- Honest generation succeeds and produces a proof whose fields satisfy
both per-index verifier equations. -/
theorem blum_honest (hashToN : ℕ → List ℤ → ℕ) {p q : ℕ} {w : ℤ}
    (hH : ∀ b args, 0 < b → hashToN b args < b)
    (pp : p.Prime) (qp : q.Prime) (hpq : p ≠ q)
    (hp4 : p % 4 = 3) (hq4 : q % 4 = 3)
    (hgcd : Nat.gcd (p * q) ((p - 1) * (q - 1)) = 1)
    (hw : jacobiPQ w p q = -1) :
    ∃ pf : ModProof,
      ModProofGen hashToN (p * q) ((p - 1) * (q - 1)) p q w = some pf ∧
      pf.W = w ∧ pf.Z.length = PARAM_M ∧
      ∀ i ∈ List.range PARAM_M,
        expMod (pf.Z.getD i 0) (p * q) (p * q) =
          (ModChallenge hashToN (p * q) w).getD i 0 ∧
        expMod (pf.X.getD i 0) 4 (p * q) =
          twistYi w ((ModChallenge hashToN (p * q) w).getD i 0)
            (pf.A.getD i false) (pf.B.getD i false) (p * q) := by
  have hp3 : 3 ≤ p := by have := pp.two_le; omega
  have hq3 : 3 ≤ q := by have := qp.two_le; omega
  have hphi1 : 1 < (p - 1) * (q - 1) := by
    have h1 : 2 ≤ p - 1 := by omega
    have h2 : 2 ≤ q - 1 := by omega
    calc 1 < 2 * 2 := by norm_num
      _ ≤ (p - 1) * (q - 1) := Nat.mul_le_mul h1 h2
  have hco : Nat.Coprime p q := (Nat.coprime_primes pp qp).mpr hpq
  have hNpos : 0 < p * q := Nat.mul_pos pp.pos qp.pos
  set y := ModChallenge hashToN (p * q) w with hy_def
  have hylen : y.length = PARAM_M := by
    simp [hy_def, ModChallenge]
  have hyi : ∀ i, i < PARAM_M →
      y.getD i 0 = ((hashToN (p * q) [w, (i : ℤ)] : ℕ) : ℤ) := by
    intro i hi
    rw [hy_def]
    unfold ModChallenge
    rw [getD_map_lt _ _ (by simpa using hi) 0 0, getD_range_lt hi]
  set g : ℤ → Bool × Bool × ℤ :=
    fun yi => (DefineXi w yi p q (p * q)).getD (false, false, 0) with hg_def
  have hsome : ∀ yi ∈ y, DefineXi w yi p q (p * q) = some (g yi) := fun yi _ =>
    option_eq_some_getD (blum_defineXi pp qp hpq hp4 hq4 hw yi) _
  have hmap := mapOption_eq_map _ g y hsome
  refine ⟨{ W := w
            X := (y.map g).map fun t => t.2.2
            A := (y.map g).map fun t => t.1
            B := (y.map g).map fun t => t.2.1
            Z := y.map fun yi =>
              expMod yi (modInverse (p * q) ((p - 1) * (q - 1))) (p * q) },
    ?_, rfl, ?_, ?_⟩
  · unfold ModProofGen
    simp only [← hy_def, hmap]
  · simp [hylen]
  · intro i hmem
    have hi : i < PARAM_M := List.mem_range.mp hmem
    have hilen : i < y.length := by rw [hylen]; exact hi
    have hilen2 : i < (y.map g).length := by rw [List.length_map, hylen]; exact hi
    have hy0 : (0 : ℤ) ≤ y.getD i 0 := by
      rw [hyi i hi]; positivity
    have hy1 : y.getD i 0 < ((p * q : ℕ) : ℤ) := by
      rw [hyi i hi]
      exact_mod_cast hH (p * q) [w, (i : ℤ)] hNpos
    constructor
    · show expMod ((y.map fun yi =>
          expMod yi (modInverse (p * q) ((p - 1) * (q - 1))) (p * q)).getD i 0)
            (p * q) (p * q) = y.getD i 0
      rw [getD_map_lt _ _ hilen 0 0]
      exact honest_zcheck pp qp hpq rfl rfl hphi1 hgcd hy0 hy1
    · show expMod (((y.map g).map fun t => t.2.2).getD i 0) 4 (p * q) =
        twistYi w (y.getD i 0)
          (((y.map g).map fun t => t.1).getD i false)
          (((y.map g).map fun t => t.2.1).getD i false) (p * q)
      rw [getD_map_lt _ _ hilen2 0 (false, false, 0),
        getD_map_lt _ _ hilen2 false (false, false, 0),
        getD_map_lt _ _ hilen2 false (false, false, 0),
        getD_map_lt _ _ hilen (false, false, 0) 0]
      have habx : DefineXi w (y.getD i 0) p q (p * q) = some (g (y.getD i 0)) :=
        hsome _ (getD_mem_of_lt y hilen 0)
      have hmem4 := defineXi_spec (a := (g (y.getD i 0)).1) (b := (g (y.getD i 0)).2.1)
        (x := (g (y.getD i 0)).2.2) habx
      have hpow := compMod4thRt_pow hco hmem4
      have hemod := (ZMod.intCast_eq_intCast_iff' _ _ _).mp hpow
      have ht : twistYi w (y.getD i 0) (g (y.getD i 0)).1 (g (y.getD i 0)).2.1 (p * q) %
          ((p * q : ℕ) : ℤ) =
          twistYi w (y.getD i 0) (g (y.getD i 0)).1 (g (y.getD i 0)).2.1 (p * q) := by
        unfold twistYi
        exact Int.emod_emod_of_dvd _ dvd_rfl
      unfold expMod
      rw [hemod, ht]

theorem getD_set_ne {α : Type} (l : List α) (j : ℕ) (a : α) {i : ℕ} (h : i ≠ j)
    (d : α) : (l.set j a).getD i d = l.getD i d := by
  rw [List.getD_eq_getElem?_getD, List.getD_eq_getElem?_getD,
    List.getElem?_set_ne (by omega : j ≠ i)]

theorem getD_set_eq {α : Type} (l : List α) (j : ℕ) (a : α) (h : j < l.length)
    (d : α) : (l.set j a).getD j d = a := by
  rw [List.getD_eq_getElem?_getD, List.getElem?_set_eq_of_lt a h]
  rfl

theorem sumHash_lt : ∀ (b : ℕ) (args : List ℤ), 0 < b → sumHash b args < b :=
  fun _ as hb => Nat.mod_lt ((as.map Int.natAbs).sum) hb

/-- Claim C1: completeness of the Blum-integer proof.  For every Blum modulus
`N = p*q` (distinct primes `p, q ≡ 3 mod 4`), `φ(N) = (p-1)(q-1)` with
`gcd(N, φ(N)) = 1`, every sampling outcome of generation (a witness `w` with
`Jacobi(w, N) = -1`, the loop's exit condition) and every hash oracle obeying
the `hash_to_n` range contract, `ModProof()` succeeds (the panic branch is
not taken) and `ModVerify(N)` returns `(true, nil)`: `N` is odd and
composite, and all 80 pairs of checks `z_i^N = y_i` and
`x_i^4 = (-1)^(a_i) w^(b_i) y_i mod N` pass. -/
theorem C1_mod_proof_completeness (hashToN : ℕ → List ℤ → ℕ) (p q : ℕ) (w : ℤ)
    (hH : ∀ b args, 0 < b → hashToN b args < b)
    (pp : p.Prime) (qp : q.Prime) (hpq : p ≠ q)
    (hp4 : p % 4 = 3) (hq4 : q % 4 = 3)
    (hgcd : Nat.gcd (p * q) ((p - 1) * (q - 1)) = 1)
    (hw : jacobiPQ w p q = -1) :
    ∃ pf : ModProof,
      ModProofGen hashToN (p * q) ((p - 1) * (q - 1)) p q w = some pf ∧
      ModVerify hashToN (p * q) pf = none := by
  obtain ⟨pf, hgen, hW, hZlen, hchecks⟩ :=
    blum_honest hashToN hH pp qp hpq hp4 hq4 hgcd hw
  refine ⟨pf, hgen, ?_⟩
  unfold ModVerify
  have hodd : (p * q) % 2 = 1 := by
    have h1 : p % 2 = 1 := by omega
    have h2 : q % 2 = 1 := by omega
    rw [Nat.mul_mod, h1, h2]
  have hnp : probablyPrime (p * q) = false := by
    rw [Bool.eq_false_iff, Ne, probablyPrime_iff]
    exact Nat.not_prime_mul (by have := pp.two_le; omega) (by have := qp.two_le; omega)
  rw [if_neg (by omega), hnp, if_neg (by simp), hW]
  exact modVerifyLoop_none hchecks

/-- Claim C1 witness at `p = 7`, `q = 11`, `w = 2`, hash oracle `sumHash`. -/
theorem C1_mod_proof_completeness_witness :
    ∃ pf : ModProof,
      ModProofGen sumHash (7 * 11) ((7 - 1) * (11 - 1)) 7 11 2 = some pf ∧
      ModVerify sumHash (7 * 11) pf = none :=
  C1_mod_proof_completeness sumHash 7 11 2 sumHash_lt
    (by norm_num) (by norm_num) (by norm_num) (by norm_num) (by norm_num)
    (by norm_num) (by decide)

/-- Claim C8: tamper detection.  For every honestly generated `ModProof`
over a Blum modulus with `gcd(N, φ(N)) = 1`, decrementing the last response
entry `Z[79]` makes `ModVerify(N)` reject with a non-nil reason, namely the
failure of the check `z_79^N mod N = y_79` (exponentiation by `N` is
injective modulo `N`). -/
theorem C8_tamper_detection (hashToN : ℕ → List ℤ → ℕ) (p q : ℕ) (w : ℤ)
    (hH : ∀ b args, 0 < b → hashToN b args < b)
    (pp : p.Prime) (qp : q.Prime) (hpq : p ≠ q)
    (hp4 : p % 4 = 3) (hq4 : q % 4 = 3)
    (hgcd : Nat.gcd (p * q) ((p - 1) * (q - 1)) = 1)
    (hw : jacobiPQ w p q = -1) :
    ∀ pf : ModProof,
      ModProofGen hashToN (p * q) ((p - 1) * (q - 1)) p q w = some pf →
      ModVerify hashToN (p * q)
          { pf with Z := pf.Z.set 79 (pf.Z.getD 79 0 - 1) } =
        some (ModErr.zCheckFailed 79) := by
  intro pf1 hgen'
  obtain ⟨pf, hgen, hW, hZlen, hchecks⟩ :=
    blum_honest hashToN hH pp qp hpq hp4 hq4 hgcd hw
  have hpf : pf1 = pf := Option.some.inj (hgen'.symm.trans hgen)
  rw [hpf]
  clear hpf hgen' pf1
  have hp3 : 3 ≤ p := by have := pp.two_le; omega
  have hq3 : 3 ≤ q := by have := qp.two_le; omega
  have hphi1 : 1 < (p - 1) * (q - 1) := by
    have h1 : 2 ≤ p - 1 := by omega
    have h2 : 2 ≤ q - 1 := by omega
    calc 1 < 2 * 2 := by norm_num
      _ ≤ (p - 1) * (q - 1) := Nat.mul_le_mul h1 h2
  unfold ModVerify
  have hodd : (p * q) % 2 = 1 := by
    have h1 : p % 2 = 1 := by omega
    have h2 : q % 2 = 1 := by omega
    rw [Nat.mul_mod, h1, h2]
  have hnp : probablyPrime (p * q) = false := by
    rw [Bool.eq_false_iff, Ne, probablyPrime_iff]
    exact Nat.not_prime_mul (by omega) (by omega)
  rw [if_neg (by omega), hnp, if_neg (by simp)]
  show ModVerifyLoop (p * q) pf.W pf.X pf.A pf.B (pf.Z.set 79 (pf.Z.getD 79 0 - 1))
      (ModChallenge hashToN (p * q) pf.W) (List.range PARAM_M) =
    some (ModErr.zCheckFailed 79)
  rw [hW]
  have hsplit : List.range PARAM_M = List.range 79 ++ [79] := by
    rw [show PARAM_M = 79 + 1 from rfl, List.range_succ]
  rw [hsplit, modVerifyLoop_append ?hpass]
  case hpass =>
    intro i hi
    have hi79 : i < 79 := List.mem_range.mp hi
    have hne : i ≠ 79 := by omega
    rw [getD_set_ne _ _ _ hne]
    exact hchecks i (List.mem_range.mpr (by unfold PARAM_M; omega))
  have h79mem : (79 : ℕ) ∈ List.range PARAM_M := List.mem_range.mpr (by decide)
  obtain ⟨hz79, _⟩ := hchecks 79 h79mem
  have hfail : ¬(expMod ((pf.Z.set 79 (pf.Z.getD 79 0 - 1)).getD 79 0) (p * q) (p * q)
      = (ModChallenge hashToN (p * q) w).getD 79 0) := by
    rw [getD_set_eq _ _ _ (by rw [hZlen]; decide)]
    intro heq
    have heq2 : expMod (pf.Z.getD 79 0 - 1) (p * q) (p * q)
        = expMod (pf.Z.getD 79 0) (p * q) (p * q) := heq.trans hz79.symm
    unfold expMod at heq2
    have hcast := (ZMod.intCast_eq_intCast_iff' _ _ _).mpr heq2
    rw [Int.cast_pow, Int.cast_pow] at hcast
    have hinj := powN_inj pp qp hpq rfl rfl hphi1 hgcd hcast
    have hmodeq := (ZMod.intCast_eq_intCast_iff _ _ _).mp hinj
    have hdvd : ((p * q : ℕ) : ℤ) ∣ 1 := by
      have h1 := hmodeq.dvd
      have h2 : pf.Z.getD 79 0 - (pf.Z.getD 79 0 - 1) = 1 := by ring
      rwa [h2] at h1
    have hle : ((p * q : ℕ) : ℤ) ≤ 1 := Int.le_of_dvd one_pos hdvd
    have : p * q ≤ 1 := by exact_mod_cast hle
    have : 4 ≤ p * q := by
      calc 4 = 2 * 2 := by norm_num
        _ ≤ p * q := Nat.mul_le_mul pp.two_le qp.two_le
    omega
  conv_lhs => unfold ModVerifyLoop
  rw [if_neg hfail]

/-- Claim C8 witness at `p = 7`, `q = 11`, `w = 2`, hash oracle `sumHash`:
the honestly generated proof with `Z[79]` decremented is rejected at index
79 of the `z`-check. -/
theorem C8_tamper_detection_witness :
    (ModProofGen sumHash (7 * 11) ((7 - 1) * (11 - 1)) 7 11 2).map
      (fun pf => ModVerify sumHash (7 * 11)
        { pf with Z := pf.Z.set 79 (pf.Z.getD 79 0 - 1) }) =
      some (some (ModErr.zCheckFailed 79)) := by
  have h := C8_tamper_detection sumHash 7 11 2 sumHash_lt
    (by norm_num) (by norm_num) (by norm_num) (by norm_num) (by norm_num)
    (by norm_num) (by decide)
  rcases hg : ModProofGen sumHash (7 * 11) ((7 - 1) * (11 - 1)) 7 11 2 with _ | pf
  · exact absurd hg (by decide)
  · exact congrArg some (h pf hg)

/-- Claim C5: under the Blum precondition (`p ≠ q` primes `≡ 3 mod 4`,
`Jacobi(w, N) = -1`, `y ∈ [0, N)`), at least one of the four sign/twist
combinations makes `(-1)^a w^b y mod N` have a quartic root via
`CompMod4thRt`, so `DefineXi` returns normally and its `no root found`
panic branch is unreachable. -/
theorem C5_quartic_root_search_total (p q : ℕ) (w y : ℤ)
    (pp : p.Prime) (qp : q.Prime) (hpq : p ≠ q)
    (hp4 : p % 4 = 3) (hq4 : q % 4 = 3)
    (hw : jacobiPQ w p q = -1) (hy0 : 0 ≤ y) (hy1 : y < ((p * q : ℕ) : ℤ)) :
    (∃ a b : Bool, CompMod4thRt (twistYi w y a b (p * q)) p q (p * q) ≠ []) ∧
      DefineXi w y p q (p * q) ≠ none :=
  ⟨blum_fourth_exists pp qp hpq hp4 hq4 hw y,
   blum_defineXi pp qp hpq hp4 hq4 hw y⟩

/-- Claim C5 witness at `p = 7`, `q = 11`, `w = 2`, `y = 3`. -/
theorem C5_quartic_root_search_total_witness :
    (∃ a b : Bool, CompMod4thRt (twistYi 2 3 a b (7 * 11)) 7 11 (7 * 11) ≠ []) ∧
      DefineXi 2 3 7 11 (7 * 11) ≠ none :=
  C5_quartic_root_search_total 7 11 2 3 (by norm_num) (by norm_num) (by norm_num)
    (by norm_num) (by norm_num) (by decide) (by decide) (by decide)

/-- The nested reduced `CompModSqrt` combination equals the plain CRT
formula `b*q*rp + a*p*rq mod n`. -/
theorem crtComb_eq_plain (p q n : ℕ) (rp rq : ℤ) :
    crtComb p q n rp rq = (egcdB p q * q * rp + egcdA p q * p * rq) % (n : ℤ) := by
  unfold crtComb modAdd modMul
  have h1 : egcdB p q * (q : ℤ) % n * rp % n ≡ egcdB p q * q * rp [ZMOD (n : ℤ)] :=
    (Int.emod_emod_of_dvd _ dvd_rfl).trans
      (Int.ModEq.mul_right rp (Int.emod_emod_of_dvd _ dvd_rfl))
  have h2 : egcdA p q * (p : ℤ) % n * rq % n ≡ egcdA p q * p * rq [ZMOD (n : ℤ)] :=
    (Int.emod_emod_of_dvd _ dvd_rfl).trans
      (Int.ModEq.mul_right rq (Int.emod_emod_of_dvd _ dvd_rfl))
  exact h1.add h2

theorem isSquare_iff_exists_int {p : ℕ} (hp : 0 < p) (x : ℤ) :
    IsSquare ((x : ℤ) : ZMod p) ↔ ∃ r : ℤ, r * r ≡ x [ZMOD (p : ℤ)] := by
  haveI : NeZero p := ⟨hp.ne'⟩
  constructor
  · rintro ⟨c, hc⟩
    refine ⟨(c.val : ℤ), ?_⟩
    rw [← ZMod.intCast_eq_intCast_iff]
    push_cast
    rw [ZMod.natCast_val, ZMod.cast_id]
    exact hc.symm
  · rintro ⟨r, hr⟩
    have h2 := (ZMod.intCast_eq_intCast_iff _ _ _).mpr hr
    push_cast at h2
    exact ⟨(r : ZMod p), h2.symm⟩

theorem primeModSqrt_length (x : ℤ) (p : ℕ) :
    (PrimeModSqrt x p).length = 0 ∨ (PrimeModSqrt x p).length = 2 := by
  unfold PrimeModSqrt
  rcases (List.range p).find? (fun r : ℕ => ((r : ℤ) * r) % p = x % p) with _ | r <;> simp

theorem compModSqrt_length (x : ℤ) (p q n : ℕ) :
    (CompModSqrt x p q n).length =
      (PrimeModSqrt x p).length * (PrimeModSqrt x q).length := by
  rw [compModSqrt_eq, List.length_flatMap]
  have : ∀ rp : ℤ, ((PrimeModSqrt x q).map fun rq => crtComb p q n rp rq).length =
      (PrimeModSqrt x q).length := fun rp => List.length_map _ _
  induction PrimeModSqrt x p with
  | nil => simp
  | cons a l ih =>
    simp only [List.map_cons, List.sum_cons, ih, Function.comp_apply, List.length_map,
      List.length_cons]
    ring

/-- Claim C6: CRT square-root combination is correct and has the stated
cardinality.  For distinct odd primes `p, q` and `n = p*q`: every element
`r` of `CompModSqrt x p q n` satisfies `r*r ≡ x (mod n)` and equals
`b*q*rp + a*p*rq mod n` for prime-level roots `rp`, `rq` and Bézout
coefficients with `a*p + b*q = 1`; the list is empty iff `x` has no square
root modulo `p` or modulo `q`; and the list length is 0, 2, or 4. -/
theorem C6_comp_mod_sqrt_correct (p q : ℕ) (x : ℤ)
    (pp : p.Prime) (qp : q.Prime) (hpq : p ≠ q)
    (hpo : p % 2 = 1) (hqo : q % 2 = 1) :
    (∀ r ∈ CompModSqrt x p q (p * q),
        r * r ≡ x [ZMOD ((p * q : ℕ) : ℤ)] ∧
        ∃ a b rp rq : ℤ, a * p + b * q = 1 ∧
          rp * rp ≡ x [ZMOD (p : ℤ)] ∧ rq * rq ≡ x [ZMOD (q : ℤ)] ∧
          r = (b * q * rp + a * p * rq) % ((p * q : ℕ) : ℤ)) ∧
    (CompModSqrt x p q (p * q) = [] ↔
      (¬∃ r : ℤ, r * r ≡ x [ZMOD (p : ℤ)]) ∨
      (¬∃ r : ℤ, r * r ≡ x [ZMOD (q : ℤ)])) ∧
    ((CompModSqrt x p q (p * q)).length = 0 ∨
     (CompModSqrt x p q (p * q)).length = 2 ∨
     (CompModSqrt x p q (p * q)).length = 4) := by
  have hco : Nat.Coprime p q := (Nat.coprime_primes pp qp).mpr hpq
  refine ⟨?_, ?_, ?_⟩
  · intro r hr
    constructor
    · exact (ZMod.intCast_eq_intCast_iff _ _ _).mp (compModSqrt_sq hco hr)
    · rcases mem_compModSqrt.mp hr with ⟨rp, hrp, rq, hrq, rfl⟩
      refine ⟨egcdA p q, egcdB p q, rp, rq, bezout_eq_one hco, ?_, ?_, ?_⟩
      · exact (ZMod.intCast_eq_intCast_iff _ _ _).mp
          (by push_cast; exact primeModSqrt_root hrp)
      · exact (ZMod.intCast_eq_intCast_iff _ _ _).mp
          (by push_cast; exact primeModSqrt_root hrq)
      · exact crtComb_eq_plain p q (p * q) rp rq
  · rw [compModSqrt_eq_nil_iff]
    have hbp : PrimeModSqrt x p = [] ↔ ¬∃ r : ℤ, r * r ≡ x [ZMOD (p : ℤ)] := by
      rw [← isSquare_iff_exists_int pp.pos]
      constructor
      · intro h hsq
        exact (primeModSqrt_ne_nil_iff x p pp.pos).mpr hsq h
      · intro h
        by_contra hne
        exact h ((primeModSqrt_ne_nil_iff x p pp.pos).mp hne)
    have hbq : PrimeModSqrt x q = [] ↔ ¬∃ r : ℤ, r * r ≡ x [ZMOD (q : ℤ)] := by
      rw [← isSquare_iff_exists_int qp.pos]
      constructor
      · intro h hsq
        exact (primeModSqrt_ne_nil_iff x q qp.pos).mpr hsq h
      · intro h
        by_contra hne
        exact h ((primeModSqrt_ne_nil_iff x q qp.pos).mp hne)
    rw [hbp, hbq]
  · rw [compModSqrt_length]
    rcases primeModSqrt_length x p with h1 | h1 <;>
      rcases primeModSqrt_length x q with h2 | h2 <;>
        rw [h1, h2] <;> norm_num

/-- Claim C6 witness at `p = 7`, `q = 11`, `x = 58` (the spec's test
values). -/
theorem C6_comp_mod_sqrt_correct_witness :
    (∀ r ∈ CompModSqrt 58 7 11 (7 * 11),
        r * r ≡ 58 [ZMOD ((7 * 11 : ℕ) : ℤ)] ∧
        ∃ a b rp rq : ℤ, a * 7 + b * 11 = 1 ∧
          rp * rp ≡ 58 [ZMOD (7 : ℤ)] ∧ rq * rq ≡ 58 [ZMOD (11 : ℤ)] ∧
          r = (b * 11 * rp + a * 7 * rq) % ((7 * 11 : ℕ) : ℤ)) ∧
    (CompModSqrt 58 7 11 (7 * 11) = [] ↔
      (¬∃ r : ℤ, r * r ≡ 58 [ZMOD (7 : ℤ)]) ∨
      (¬∃ r : ℤ, r * r ≡ 58 [ZMOD (11 : ℤ)])) ∧
    ((CompModSqrt 58 7 11 (7 * 11)).length = 0 ∨
     (CompModSqrt 58 7 11 (7 * 11)).length = 2 ∨
     (CompModSqrt 58 7 11 (7 * 11)).length = 4) :=
  C6_comp_mod_sqrt_correct 7 11 58 (by norm_num) (by norm_num) (by norm_num)
    (by norm_num) (by norm_num)

set_option maxRecDepth 100000 in
/-- Claim C2 (code bug): `ModVerify(119)` ACCEPTS the forged proof, because
`N = 119` is odd and composite, `z_i^N mod N = y_i` holds for every
`y_i ∈ [0, N)` (119 is squarefree and `gcd(119, 96) = 1`), and
`x_i^4 = 0 = (-(y_i * 0)) mod N`; the repository's own test
`TestModProofVerify_ForgedProof` asserts rejection. -/
theorem C2_forged_proof_accepted :
    ModVerify sumHash 119 (forgedModProof sumHash) = none := by decide

theorem natToBytes_zero : natToBytes 0 = [] := rfl

theorem natToBytes_ne_nil {n : ℕ} (h : n ≠ 0) : natToBytes n ≠ [] := by
  unfold natToBytes
  cases n with
  | zero => exact absurd rfl h
  | succ m =>
    unfold natToBytesFuel
    simp

/-! ## Claim theorems for the remaining claims -/

/-- Claim C9: for every non-negative integer `b`, `BytesToBits b` has
exactly 80 entries, each 0 or 1, entry `i` being bit `i` of `b`
(LSB-first); and for `b = 0x0f0e0d0c0b0a090807060504030201` the bits named
by the test have the asserted values. -/
theorem C9_bytes_to_bits (b : ℕ) :
    (BytesToBits b).length = 80 ∧
    (∀ i, i < 80 → (BytesToBits b).getD i 2 = b / 2 ^ i % 2) ∧
    (∀ i, i < 80 → (BytesToBits b).getD i 2 = 0 ∨ (BytesToBits b).getD i 2 = 1) ∧
    ((BytesToBits 0x0f0e0d0c0b0a090807060504030201).getD 0 2 = 1 ∧
     (BytesToBits 0x0f0e0d0c0b0a090807060504030201).getD 1 2 = 0 ∧
     (BytesToBits 0x0f0e0d0c0b0a090807060504030201).getD 8 2 = 0 ∧
     (BytesToBits 0x0f0e0d0c0b0a090807060504030201).getD 9 2 = 1 ∧
     (BytesToBits 0x0f0e0d0c0b0a090807060504030201).getD 16 2 = 1 ∧
     (BytesToBits 0x0f0e0d0c0b0a090807060504030201).getD 17 2 = 1) := by
  have hbit : ∀ (x : ℕ) {i : ℕ}, i < 80 →
      (BytesToBits x).getD i 2 = x / 2 ^ i % 2 := by
    intro x i hi
    unfold BytesToBits
    rw [getD_map_lt _ _ (by simpa using hi) 2 0,
      getD_range_lt (show i < PARAM_M from hi), Nat.testBit_to_div_mod]
    rcases Nat.mod_two_eq_zero_or_one (x / 2 ^ i) with h | h <;> simp [h]
  refine ⟨by simp [BytesToBits, PARAM_M], fun i hi => hbit b hi, ?_, ?_⟩
  · intro i hi
    rw [hbit b hi]
    rcases Nat.mod_two_eq_zero_or_one (b / 2 ^ i) with h | h <;> simp [h]
  · refine ⟨?_, ?_, ?_, ?_, ?_, ?_⟩ <;>
      rw [hbit _ (by norm_num)] <;> norm_num

/-- Claim C9 witness at `b = 5`, `i = 2`. -/
theorem C9_bytes_to_bits_witness :
    (BytesToBits 5).getD 2 2 = 5 / 2 ^ 2 % 2 :=
  (C9_bytes_to_bits 5).2.1 2 (by norm_num)

/-- Claim C10: the message-layer marshalling encodes `W` as its big-endian
bytes, the empty string when `W = 0`; `UnmarshalModProof` rejects an empty
`W`.  Hence unmarshal-after-marshal reconstructs a `ModProof` field by
field only when `W ≥ 1` (it does reconstruct any length-80 proof with
non-negative fields and `W ≥ 1`), and for `W = 0` the round trip is a
decode error rather than the original proof. -/
theorem C10_modproof_round_trip :
    natToBytes 0 = [] ∧
    (∀ pf : ModProof, ModProofRoundTrip pf = some pf → 1 ≤ pf.W) ∧
    (∀ pf : ModProof,
      pf.X.length = PARAM_M → pf.A.length = PARAM_M → pf.B.length = PARAM_M →
      pf.Z.length = PARAM_M → 1 ≤ pf.W →
      (∀ x ∈ pf.X, 0 ≤ x) → (∀ z ∈ pf.Z, 0 ≤ z) →
      ModProofRoundTrip pf = some pf) ∧
    (∀ pf : ModProof, pf.W = 0 → ModProofRoundTrip pf = none) := by
  refine ⟨rfl, ?_, ?_, ?_⟩
  · intro pf h
    unfold ModProofRoundTrip UnmarshalModProof at h
    split_ifs at h with h1 h2 h3 h4 h5
    have hW := congrArg ModProof.W (Option.some.inj h)
    simp only at hW
    have hne : pf.W.natAbs ≠ 0 := by
      intro h0
      rw [h0, natToBytes_zero] at h1
      exact h1 rfl
    have hWnn : (0 : ℤ) ≤ pf.W := by
      rw [← hW, bytesToNat_natToBytes]
      positivity
    have : pf.W ≠ 0 := fun h0 => hne (by rw [h0]; rfl)
    omega
  · intro pf hX hA hB hZ hW hXnn hZnn
    obtain ⟨W, X, A, B, Z⟩ := pf
    simp only at hX hA hB hZ hW hXnn hZnn
    unfold ModProofRoundTrip UnmarshalModProof
    have hwne : natToBytes W.natAbs ≠ [] := by
      apply natToBytes_ne_nil
      intro h0
      have : W = 0 := Int.natAbs_eq_zero.mp h0
      omega
    rw [if_neg (by simpa using hwne), if_neg (by simp [hX]),
      if_neg (by simp [hA]), if_neg (by simp [hB]), if_neg (by simp [hZ])]
    have hWval : ((bytesToNat (natToBytes W.natAbs) : ℕ) : ℤ) = W := by
      rw [bytesToNat_natToBytes]
      exact Int.natAbs_of_nonneg (by omega)
    have hXval : (X.map fun x => natToBytes x.natAbs).map
        (fun l => (bytesToNat l : ℤ)) = X := by
      rw [List.map_map]
      have : ∀ x ∈ X, ((bytesToNat (natToBytes x.natAbs) : ℕ) : ℤ) = x := by
        intro x hx
        rw [bytesToNat_natToBytes]
        exact Int.natAbs_of_nonneg (hXnn x hx)
      calc X.map ((fun l => (bytesToNat l : ℤ)) ∘ fun x => natToBytes x.natAbs)
          = X.map id := List.map_congr_left this
        _ = X := List.map_id X
    have hZval : (Z.map fun z => natToBytes z.natAbs).map
        (fun l => (bytesToNat l : ℤ)) = Z := by
      rw [List.map_map]
      have : ∀ z ∈ Z, ((bytesToNat (natToBytes z.natAbs) : ℕ) : ℤ) = z := by
        intro z hz
        rw [bytesToNat_natToBytes]
        exact Int.natAbs_of_nonneg (hZnn z hz)
      calc Z.map ((fun l => (bytesToNat l : ℤ)) ∘ fun z => natToBytes z.natAbs)
          = Z.map id := List.map_congr_left this
        _ = Z := List.map_id Z
    rw [hWval, hXval, hZval]
  · intro pf hW
    unfold ModProofRoundTrip UnmarshalModProof
    rw [hW]
    simp [natToBytes_zero]

/-- Claim C10 witness: a concrete length-80 proof with `W = 1` round-trips
to itself, and the same proof with `W = 0` fails to decode. -/
theorem C10_modproof_round_trip_witness :
    ModProofRoundTrip
      { W := 1, X := List.replicate PARAM_M 0, A := List.replicate PARAM_M false,
        B := List.replicate PARAM_M false, Z := List.replicate PARAM_M 0 } =
      some { W := 1, X := List.replicate PARAM_M 0, A := List.replicate PARAM_M false,
             B := List.replicate PARAM_M false, Z := List.replicate PARAM_M 0 } ∧
    ModProofRoundTrip
      { W := 0, X := List.replicate PARAM_M 0, A := List.replicate PARAM_M false,
        B := List.replicate PARAM_M false, Z := List.replicate PARAM_M 0 } = none :=
  ⟨(C10_modproof_round_trip).2.2.1 _ (by simp) (by simp) (by simp) (by simp)
      (by norm_num) (by intro x hx; simp_all) (by intro z hz; simp_all),
   (C10_modproof_round_trip).2.2.2 _ rfl⟩

/-- Claim C7: `FactorVerify` accepts iff the three verification equalities
hold (with the challenge recomputed by `FactorChallenge` and
`R = s^pkN * t^Sigma mod N`) and both responses satisfy
`|Z| ≤ 2^768 * ⌊√pkN⌋`, the boundary value included; and every rejection
reports exactly a violated equality or bound. -/
theorem C7_factor_verify_iff (hashToN : ℕ → List ℤ → ℕ) (pkN N : ℕ) (s t : ℤ)
    (pf : FactorProof) :
    (FactorVerify hashToN pkN N s t pf = none ↔
      (ExpMulExp N s pf.Z1 t pf.W1 =
        MulExp N pf.A pf.P
          (FactorChallenge hashToN N s t pkN pf.P pf.Q pf.A pf.B pf.T pf.Sigma) ∧
       ExpMulExp N s pf.Z2 t pf.W2 =
        MulExp N pf.B pf.Q
          (FactorChallenge hashToN N s t pkN pf.P pf.Q pf.A pf.B pf.T pf.Sigma) ∧
       ExpMulExp N pf.Q pf.Z1 t pf.V =
        MulExp N pf.T (ExpMulExp N s (pkN : ℤ) t pf.Sigma)
          (FactorChallenge hashToN N s t pkN pf.P pf.Q pf.A pf.B pf.T pf.Sigma) ∧
       |pf.Z1| ≤ 2 ^ (PARAM_L + PARAM_E) * ((Nat.sqrt pkN : ℕ) : ℤ) ∧
       |pf.Z2| ≤ 2 ^ (PARAM_L + PARAM_E) * ((Nat.sqrt pkN : ℕ) : ℤ))) ∧
    (∀ er : FacErr, FactorVerify hashToN pkN N s t pf = some er →
      FacErrCond hashToN pkN N s t pf er) := by
  unfold FactorVerify FacErrCond
  dsimp only
  split_ifs with h1 h2 h3 h4 h5
  · constructor
    · constructor
      · intro h; exact absurd h (by simp)
      · rintro ⟨c1, _⟩; exact absurd c1 h1
    · rintro er her
      cases Option.some.inj her
      exact h1
  · constructor
    · constructor
      · intro h; exact absurd h (by simp)
      · rintro ⟨_, c2, _⟩; exact absurd c2 h2
    · rintro er her
      cases Option.some.inj her
      exact h2
  · constructor
    · constructor
      · intro h; exact absurd h (by simp)
      · rintro ⟨_, _, c3, _⟩; exact absurd c3 h3
    · rintro er her
      cases Option.some.inj her
      exact h3
  · constructor
    · constructor
      · intro h; exact absurd h (by simp)
      · rintro ⟨_, _, _, c4, _⟩; omega
    · rintro er her
      cases Option.some.inj her
      exact h4
  · constructor
    · constructor
      · intro h; exact absurd h (by simp)
      · rintro ⟨_, _, _, _, c5⟩; omega
    · rintro er her
      cases Option.some.inj her
      exact h5
  · constructor
    · constructor
      · intro _
        push_neg at h1 h2 h3
        exact ⟨h1, h2, h3, by omega, by omega⟩
      · intro _; rfl
    · rintro er her
      exact absurd her (by simp)

/-- Claim C4 counterexample: a `ModProof` with a nil `Z[0]` (an odd
composite modulus, so the parity and primality checks pass) makes
`ModVerify` dereference the nil entry: the run crashes (modelled by the
outer `none`) instead of rejecting with a structured error naming the
missing field. -/
theorem C4_missing_field_counterexample :
    ModVerifyN sumHash 15 nilZModProof = none := by decide

/-- Claim C4 (amended): `ParamVerify` rejects a proof with any nil `A[i]`
or `Z[i]` by returning a bare `false`, indistinguishable from an ordinary
verification failure (its return type carries no error); `ModVerify`
performs no nil check at all, and a nil `Z[0]` is dereferenced inside the
first loop iteration (a crash, not an error return). -/
theorem C4_missing_field_amended :
    (∀ (sha : List ℤ → ℕ) (N : ℕ) (s t : ℤ) (pf : ParamProof),
        (AnyIsNil pf.A || AnyIsNil pf.Z) = true →
        ParamVerify sha N s t pf = false) ∧
    (∀ (hashToN : ℕ → List ℤ → ℕ) (N : ℕ) (pf : ModProofN) (w : ℤ),
        N % 2 = 1 → probablyPrime N = false → pf.W = some w →
        pf.Z.getD 0 (some 0) = none →
        ModVerifyN hashToN N pf = none) := by
  constructor
  · intro sha N s t pf hnil
    unfold ParamVerify
    rw [if_pos hnil]
  · intro hashToN N pf w hodd hnp hW hZ0
    unfold ModVerifyN
    rw [if_neg (by omega), hnp, if_neg (by simp), hW]
    have hr : List.range PARAM_M = 0 :: (List.range' 1 79 1) := by decide
    rw [hr]
    unfold ModVerifyLoopN
    rw [hZ0]

/-- Claim C4 amended witness: the nil-`A[42]` `ParamProof` is rejected with
a bare `false`, and the nil-`Z[0]` `ModProof` crashes, at `N = 21`. -/
theorem C4_missing_field_amended_witness :
    ParamVerify shaOne 15 2 4 nilAParamProof = false ∧
    ModVerifyN sumHash 21 nilZModProof = none :=
  ⟨C4_missing_field_amended.1 shaOne 15 2 4 nilAParamProof (by decide),
   C4_missing_field_amended.2 sumHash 21 nilZModProof 2 (by norm_num)
     (by decide) rfl (by decide)⟩

theorem anyIsNil_someList (l : List ℤ) : AnyIsNil (someList l) = false := by
  simp [AnyIsNil, someList]

theorem mapVal_someList (l : List ℤ) :
    (someList l).map (fun o => o.getD 0) = l := by
  simp [someList, List.map_map, Function.comp_def]

theorem optVal_someList (l : List ℤ) {i : ℕ} (h : i < l.length) :
    optVal (someList l) i = l.getD i 0 := by
  unfold optVal someList
  rw [getD_map_lt some l h (some 0) 0]
  rfl

theorem cast_expMod (x : ℤ) (k N : ℕ) :
    ((expMod x k N : ℤ) : ZMod N) = ((x : ZMod N)) ^ k := by
  unfold expMod
  rw [intCast_emod_self]
  push_cast
  rfl

/-- Powers of an invertible base modulo `N` only depend on the exponent
modulo `φ(N)` (Euler). -/
theorem zmod_unit_pow_congr {N : ℕ} (hN : 1 < N) {t : ℤ} (ht : Int.gcd t N = 1)
    {a b : ℕ} (hab : a ≡ b [MOD Nat.totient N]) :
    ((t : ZMod N)) ^ a = ((t : ZMod N)) ^ b := by
  haveI : NeZero N := ⟨by omega⟩
  obtain ⟨u, v, huv⟩ := Int.gcd_eq_one_iff_coprime.mp ht
  have hunit : IsUnit ((t : ZMod N)) := by
    have hc : ((u * t + v * N : ℤ) : ZMod N) = ((1 : ℤ) : ZMod N) := by rw [huv]
    push_cast at hc
    rw [ZMod.natCast_self, mul_zero, add_zero] at hc
    exact isUnit_of_mul_eq_one _ _ (mul_comm (u : ZMod N) (t : ZMod N) ▸ hc)
  obtain ⟨U, hU⟩ := hunit
  have htotU : U ^ Nat.totient N = 1 := ZMod.pow_totient U
  have hdvd : orderOf U ∣ Nat.totient N := orderOf_dvd_of_pow_eq_one htotU
  have hab2 : a ≡ b [MOD orderOf U] := Nat.ModEq.of_dvd hdvd hab
  have hpow : U ^ a = U ^ b := pow_eq_pow_iff_modEq.mpr hab2
  calc ((t : ZMod N)) ^ a = (U : ZMod N) ^ a := by rw [hU]
    _ = ((U ^ a : (ZMod N)ˣ) : ZMod N) := (Units.val_pow_eq_pow_val U a).symm
    _ = ((U ^ b : (ZMod N)ˣ) : ZMod N) := by rw [hpow]
    _ = (U : ZMod N) ^ b := Units.val_pow_eq_pow_val U b
    _ = ((t : ZMod N)) ^ b := by rw [hU]

/-- Claim C3 counterexample: the spec's stated precondition is `t = s^λ`.
At `N = 15 = 3*5`, `φ(N) = 8`, `s = 2`, `λ = 2`, `t = s^λ mod N = 4`
(both bases coprime to `N`, `λ < φ(N)`), the proof generated by
`ParamProof(s, t, λ)` with all `a_i = 0` under the constant digest oracle
is REJECTED by `ParamVerify`: already at index 0,
`t^(z_0) = 4^2 = 1 mod 15` but `A_0 * s^(e_0) = 2`. -/
theorem C3_param_completeness_counterexample :
    (4 : ℤ) = expMod 2 2 15 ∧ Int.gcd 2 15 = 1 ∧ Int.gcd 4 15 = 1 ∧
    Nat.Prime 3 ∧ Nat.Prime 5 ∧ (15 : ℕ) = 3 * 5 ∧
    (8 : ℕ) = (3 - 1) * (5 - 1) ∧ (2 : ℕ) < 8 ∧
    ParamVerify shaOne 15 2 4
      (ParamProofGen shaOne 15 8 2 4 2 (List.replicate PARAM_M 0)) = false :=
  ⟨by decide, by norm_num, by norm_num, by norm_num, by norm_num, by norm_num,
   by norm_num, by norm_num, by decide⟩

/-- Claim C3 (amended): completeness of the ring-Pedersen parameter proof
under the relation the code actually uses.  For every modulus `N = p*q`
with `φ(N) = (p-1)(q-1)`, every `s` and `t` coprime to `N` satisfying
`s = t^λ mod N` (the spec states `t = s^λ`, which the counterexample above
refutes), every `λ` in `[0, φ(N))`, every sampling outcome and every digest
oracle, the proof returned by `ParamProof(s, t, λ)` makes
`ParamVerify(N, s, t)` return `true`. -/
theorem C3_param_completeness_amended (sha : List ℤ → ℕ) (p q phiN : ℕ)
    (s t : ℤ) (lam : ℕ) (aS : List ℕ)
    (pp : p.Prime) (qp : q.Prime) (hpq : p ≠ q)
    (hphi : phiN = (p - 1) * (q - 1))
    (ht : Int.gcd t (p * q) = 1) (hs : Int.gcd s (p * q) = 1)
    (hst : s = expMod t lam (p * q)) (hlam : lam < phiN) :
    ParamVerify sha (p * q) s t
      (ParamProofGen sha (p * q) phiN s t (lam : ℤ) aS) = true := by
  have hp2 := pp.two_le
  have hq2 := qp.two_le
  have hN1 : 1 < p * q := by
    calc 1 < 2 * 2 := by norm_num
      _ ≤ p * q := Nat.mul_le_mul hp2 hq2
  have hphipos : 0 < phiN := by
    rw [hphi]
    exact Nat.mul_pos (by omega) (by omega)
  have htot : Nat.totient (p * q) = phiN := by
    rw [hphi, Nat.totient_mul ((Nat.coprime_primes pp qp).mpr hpq),
      Nat.totient_prime pp, Nat.totient_prime qp]
  unfold ParamProofGen ParamVerify
  dsimp only
  rw [anyIsNil_someList, anyIsNil_someList]
  rw [if_neg (by simp)]
  rw [List.all_eq_true]
  intro i hi
  have hi' : i < PARAM_M := List.mem_range.mp hi
  have hAlen : ((List.range PARAM_M).map fun i : ℕ =>
      expMod t (aS.getD i 0) (p * q)).length = PARAM_M := by simp
  set A : List ℤ := (List.range PARAM_M).map fun i : ℕ =>
    expMod t (aS.getD i 0) (p * q) with hA_def
  set e : List ℕ := ParamChallenge sha (p * q) s t (someList A) with he_def
  set z : List ℤ := (List.range PARAM_M).map fun i : ℕ =>
    modAdd phiN ((aS.getD i 0 : ℕ) : ℤ) (modMul phiN ((e.getD i 0 : ℕ) : ℤ) (lam : ℤ))
    with hz_def
  have hzlen : z.length = PARAM_M := by rw [hz_def]; simp
  have hzval : z.getD i 0 =
      modAdd phiN ((aS.getD i 0 : ℕ) : ℤ) (modMul phiN ((e.getD i 0 : ℕ) : ℤ) (lam : ℤ)) := by
    rw [hz_def, getD_map_lt _ _ (by simpa using hi') 0 0, getD_range_lt hi']
  have hAval : A.getD i 0 = expMod t (aS.getD i 0) (p * q) := by
    rw [hA_def, getD_map_lt _ _ (by simpa using hi') 0 0, getD_range_lt hi']
  rw [optVal_someList z (by rw [hzlen]; exact hi'),
    optVal_someList A (by rw [hA_def]; simpa using hi')]
  rw [beq_iff_eq, hzval, hAval]
  -- Notation for this index
  set a : ℕ := aS.getD i 0
  set ei : ℕ := e.getD i 0
  -- The response is non-negative and equals a natural number expression
  have hznat : modAdd phiN ((a : ℕ) : ℤ) (modMul phiN ((ei : ℕ) : ℤ) (lam : ℤ)) =
      (((a + ei * lam % phiN) % phiN : ℕ) : ℤ) := by
    unfold modAdd modMul
    push_cast
    ring_nf
  rw [hznat]
  -- Reduce both sides modulo N via casts into ZMod N
  unfold MulExp
  unfold expModZ
  rw [if_pos (by positivity : (0 : ℤ) ≤ (((a + ei * lam % phiN) % phiN : ℕ) : ℤ)),
    if_pos (by positivity : (0 : ℤ) ≤ ((ei : ℕ) : ℤ))]
  rw [Int.toNat_natCast, Int.toNat_natCast]
  unfold modMul expMod
  rw [← Int.mul_emod]
  rw [← ZMod.intCast_eq_intCast_iff']
  push_cast
  have hsz : (s : ZMod (p * q)) = ((t : ZMod (p * q))) ^ lam := by
    rw [hst, cast_expMod]
  rw [hsz, ← pow_mul, ← pow_add]
  apply zmod_unit_pow_congr hN1 ht
  rw [htot]
  calc (a + ei * lam % phiN) % phiN
      ≡ a + ei * lam % phiN [MOD phiN] := Nat.mod_modEq _ _
    _ ≡ a + ei * lam [MOD phiN] := Nat.ModEq.add_left a (Nat.mod_modEq _ _)
    _ = a + lam * ei := by ring

/-- Claim C3 amended witness at `N = 15`, `t = 2`, `λ = 2`,
`s = t^λ mod N = 4`, constant digest oracle, all `a_i = 0`. -/
theorem C3_param_completeness_amended_witness :
    ParamVerify shaOne (3 * 5) 4 2
      (ParamProofGen shaOne (3 * 5) 8 4 2 (2 : ℕ) (List.replicate PARAM_M 0)) = true :=
  C3_param_completeness_amended shaOne 3 5 8 4 2 2 (List.replicate PARAM_M 0)
    (by norm_num) (by norm_num) (by norm_num) (by norm_num) (by norm_num)
    (by norm_num) (by decide) (by norm_num)

end Tss
